import Mathlib

/-!
Verification development for the DMRG-based function-train approximation
engine of the C3 (Compressed Continuous Computation) library.

The file shallowly embeds the code of `src/lib_clinalg/dmrg.c` (the
`dmrg_update_right`, `dmrg_update_left`, `dmrg_update_all_right`,
`dmrg_sweep_lr`, `dmrg_sweep_rl`, `dmrg_sweep_lrl` and `dmrg_approx`
routines) together with models of the external collaborators the spec
places out of scope: the univariate-function capability (evaluate,
integrate, inner product, linear combination) and the dense linear
algebra capability (Householder QR/LQ on function blocks, truncated SVD).
Univariate functions are modelled exactly as polynomials with rational
coefficients on the domain [-1, 1], so every quantity in the development
is exact and computable.

Numeric matrices are modelled, as in the C code, as flat buffers
(`Nat -> Rat`) addressed by explicit linear indices; function blocks
(`struct Qmarray`) carry their `nrows`/`ncols` fields and a column-major
flat array of function entries, exactly as the source does.
-/

/-- Univariate function on [-1,1]: polynomial coefficient list,
index `i` holding the coefficient of `x^i`. -/
abbrev GF := List ℚ

/-- Pointwise sum of two polynomials (coefficient lists padded with 0). -/
def gfAdd : GF → GF → GF
  | [], g => g
  | f, [] => f
  | a :: f, b :: g => (a + b) :: gfAdd f g

/-- Scale a polynomial by a rational constant. -/
def gfScale (c : ℚ) (f : GF) : GF := f.map (fun a => c * a)

/-- Product of two polynomials. -/
def gfMul : GF → GF → GF
  | [], _ => []
  | a :: f, g => gfAdd (gfScale a g) ((0 : ℚ) :: gfMul f g)

/-- Evaluate a polynomial at a point (Horner). -/
def gfEval (f : GF) (x : ℚ) : ℚ := f.foldr (fun c acc => c + x * acc) 0

/-- Integral of `x^k` over [-1,1]. -/
def monomialIntegral (k : ℕ) : ℚ := if k % 2 = 0 then 2 / (k + 1) else 0

/-- Integral of a polynomial over [-1,1], accumulating the exponent. -/
def gfIntegrateAux : GF → ℕ → ℚ
  | [], _ => 0
  | c :: f, k => c * monomialIntegral k + gfIntegrateAux f (k + 1)

/-- Integral of a univariate function over its domain [-1,1]. -/
def gfIntegrate (f : GF) : ℚ := gfIntegrateAux f 0

/-- Modelled from the spec: `generic_function_inner` (univariate-function
capability, not under src/): the inner product of two univariate
functions is the integral of their product over the shared domain. -/
def generic_function_inner (f g : GF) : ℚ := gfIntegrate (gfMul f g)

/-- Flat numeric buffer, as a `double *` in the C code.  All layout
information lives at the use sites, as explicit linear indices. -/
abbrev Buf := ℕ → ℚ

/-- Read through a possibly-NULL buffer pointer.  The C code never reads a
NULL accumulator on the paths the claims address; reading `none` is
modelled as a zero buffer. -/
def bufGet (o : Option Buf) : Buf := o.getD (fun _ => 0)

/-- Write one slot of an array modelled as a function. -/
def setIdx {α : Type} (f : ℕ → α) (i : ℕ) (v : α) : ℕ → α :=
  fun k => if k = i then v else f k

/-- The boundary accumulator buffer: `calloc_double(1)` followed by
`buf[0] = 1.0`, i.e. the 1x1 matrix [1.0]. -/
def one_buf : Buf := fun p => if p = 0 then 1 else 0

/-- `struct Qmarray`: a matrix of univariate functions with a column-major
flat entry array, entry (i,j) stored at `funcs[j*nrows + i]`. -/
structure Qmarray where
  nrows : ℕ
  ncols : ℕ
  funcs : ℕ → GF

/-- Entry (i, j) of a Qmarray under the column-major layout. -/
def Qmarray.entry (A : Qmarray) (i j : ℕ) : GF := A.funcs (j * A.nrows + i)

/-- Linear combination `sum_{k<n} c k * g k` of univariate functions
(the `generic_function_lin_comb` capability). -/
def gfCombine : ℕ → (ℕ → ℚ) → (ℕ → GF) → GF
  | 0, _, _ => []
  | n + 1, c, g => gfAdd (gfCombine n c g) (gfScale (c n) (g n))

/-- Modelled from the spec: `qmam` (Qmarray times numeric matrix,
`right_multiply` in section 4.1; not under src/): entry (i,j) of the
result is `sum_k A(i,k) * mat(k,j)` with `mat` read column-major with
`A.ncols` rows and `c` columns. -/
def qmam (A : Qmarray) (mat : Buf) (c : ℕ) : Qmarray :=
  { nrows := A.nrows
    ncols := c
    funcs := fun p =>
      gfCombine A.ncols (fun k => mat ((p / A.nrows) * A.ncols + k))
        (fun k => A.entry (p % A.nrows) k) }

/-- Modelled from the spec: `mqma` (numeric matrix times Qmarray,
`left_multiply` in section 4.1; not under src/): entry (i,j) of the
result is `sum_k mat(i,k) * A(k,j)` with `mat` read column-major with
`r` rows and `A.nrows` columns. -/
def mqma (mat : Buf) (A : Qmarray) (r : ℕ) : Qmarray :=
  { nrows := r
    ncols := A.ncols
    funcs := fun p =>
      gfCombine A.nrows (fun k => mat (k * r + p % r))
        (fun k => A.entry k (p / r)) }

/-- `struct FunctionTrain`: dimension, rank sequence and chain of cores. -/
structure FunctionTrain where
  dim : ℕ
  ranks : ℕ → ℕ
  cores : ℕ → Qmarray

/-- Modelled from the spec: `function_train_alloc` (not under src/):
fresh train with zeroed ranks and empty cores. -/
def function_train_alloc (d : ℕ) : FunctionTrain :=
  { dim := d
    ranks := fun _ => 0
    cores := fun _ => { nrows := 0, ncols := 0, funcs := fun _ => [] } }

/-- Modelled from the spec: `function_train_copy` (not under src/): a deep
copy, which in this pure embedding is the identity. -/
def function_train_copy (f : FunctionTrain) : FunctionTrain := f

/-- The chain invariants of the spec's data model (section 3):
boundary ranks are 1 and core `k` is a `ranks[k] x ranks[k+1]` block. -/
def ft_invariant (f : FunctionTrain) : Prop :=
  f.ranks 0 = 1 ∧ f.ranks f.dim = 1 ∧
    ∀ k, k < f.dim →
      (f.cores k).nrows = f.ranks k ∧ (f.cores k).ncols = f.ranks (k + 1)

instance (f : FunctionTrain) : Decidable (ft_invariant f) := by
  unfold ft_invariant; infer_instance

/-- `dmrg_update_right` (dmrg.c lines 59-82): computes
`Psi_k = int left(x) Psi_{k+1} right^T(x) dx`.  The result buffer holds,
at linear position `ii*left.nrows + jj`, the sum over `(kk, ll)` of
`psikp[ll*left.ncols + kk]` times the inner product of entries
`left(jj,kk)` and `right(ii,ll)`, exactly as the C loops do. -/
def dmrg_update_right (psikp : Buf) (left right : Qmarray) : Buf :=
  fun p =>
    ∑ kk ∈ Finset.range left.ncols, ∑ ll ∈ Finset.range right.ncols,
      psikp (ll * left.ncols + kk) *
        generic_function_inner
          (left.funcs (kk * left.nrows + p % left.nrows))
          (right.funcs (ll * right.nrows + p / left.nrows))

/-- `dmrg_update_left` (dmrg.c lines 126-153): computes
`Phi_{k+1} = int left(x)^T Phi_k right(x) dx`; at linear position
`ii*left.ncols + jj` the result holds the sum over `(kk, ll)` of
`phik[ll*left.nrows + kk]` times the inner product of entries
`left(kk,jj)` and `right(ll,ii)`. -/
def dmrg_update_left (phik : Buf) (left right : Qmarray) : Buf :=
  fun p =>
    ∑ kk ∈ Finset.range left.nrows, ∑ ll ∈ Finset.range right.nrows,
      phik (ll * left.nrows + kk) *
        generic_function_inner
          (left.funcs ((p % left.ncols) * left.nrows + kk))
          (right.funcs ((p / left.ncols) * right.nrows + ll))

/-- The value held in `mats[a.dim - 2 - d]` after `dmrg_update_all_right`:
the descending loop of dmrg.c lines 102-111 writes each slot exactly once,
from `psi[dim-2] = [1.0]` downwards, each slot computed from the one
above it. -/
def psi_down (a b : FunctionTrain) : ℕ → Buf
  | 0 => one_buf
  | d + 1 =>
      dmrg_update_right (psi_down a b d)
        (a.cores (a.dim - 1 - d)) (b.cores (a.dim - 1 - d))

/-- `dmrg_update_all_right` (dmrg.c lines 94-112), for trains of dimension
at least 3 (each slot `0..dim-2` is written exactly once by the
descending loop, so the imperative loop is rendered as slot-wise
recursion `psi_down`).  The unsigned-underflow behaviour of the same loop
for `dim = 2` is modelled separately by the index model `uar_accessed`
below. -/
def dmrg_update_all_right (a b : FunctionTrain) (mats : ℕ → Option Buf) :
    ℕ → Option Buf :=
  fun k => if k ≤ a.dim - 2 then some (psi_down a b (a.dim - 2 - k)) else mats k

/-- The claim-side contraction formula of C3: `contract(P, L, R)` has one
entry per (row of L, row of R) pair — stored at linear position
`rowR * L.nrows + rowL` as in the code — equal to the sum over index
pairs `(av, bv)` of the `P` entry at linear position `bv*L.ncols + av`
times the inner product of `L(rowL, av)` and `R(rowR, bv)`. -/
def contract_spec (P : Buf) (L R : Qmarray) : Buf :=
  fun p =>
    ∑ av ∈ Finset.range L.ncols, ∑ bv ∈ Finset.range R.ncols,
      P (bv * L.ncols + av) *
        generic_function_inner (L.entry (p % L.nrows) av)
          (R.entry (p / L.nrows) bv)

lemma dmrg_update_right_eq_contract (P : Buf) (L R : Qmarray) :
    dmrg_update_right P L R = contract_spec P L R := rfl

/-- C3: the right-overlap initialization (`dmrg_update_all_right` over
`dmrg_update_right`) computes, for every target train and guess train of
dimension at least 3, `Psi[dim-2] = [1.0]`, and for each `k` from
`dim-3` down to 0, `Psi[k] = contract(Psi[k+1], target.core[k+2],
guess.core[k+2])` with `contract` the claimed bilinear formula over
function inner products. -/
theorem claim_C3 (target guess : FunctionTrain) (mats : ℕ → Option Buf)
    (hdim : 3 ≤ target.dim) :
    dmrg_update_all_right target guess mats (target.dim - 2) = some one_buf ∧
    ∀ k, k ≤ target.dim - 3 →
      dmrg_update_all_right target guess mats k =
        some (contract_spec
          (bufGet (dmrg_update_all_right target guess mats (k + 1)))
          (target.cores (k + 2)) (guess.cores (k + 2))) := by
  constructor
  · unfold dmrg_update_all_right
    rw [if_pos (le_refl _)]
    simp [psi_down]
  · intro k hk
    have hk2 : k ≤ target.dim - 2 := by omega
    have hk1 : k + 1 ≤ target.dim - 2 := by omega
    unfold dmrg_update_all_right
    rw [if_pos hk2, if_pos hk1]
    have hd : target.dim - 2 - k = (target.dim - 2 - (k + 1)) + 1 := by omega
    rw [hd]
    have hcore : target.dim - 1 - (target.dim - 2 - (k + 1)) = k + 2 := by omega
    simp only [psi_down, hcore, bufGet, Option.getD_some,
      dmrg_update_right_eq_contract]

/-- Concrete dimension-3 trains used by witnesses. -/
def wTrain3 : FunctionTrain :=
  { dim := 3
    ranks := fun k => if k = 0 ∨ k = 3 then 1 else 1
    cores := fun _ => { nrows := 1, ncols := 1, funcs := fun _ => [0, 1] } }

/-- Witness for C3 at a concrete dimension-3 pair of trains. -/
theorem claim_C3_witness :
    dmrg_update_all_right wTrain3 wTrain3 (fun _ => none) (wTrain3.dim - 2) =
        some one_buf ∧
      dmrg_update_all_right wTrain3 wTrain3 (fun _ => none) 0 =
        some (contract_spec
          (bufGet (dmrg_update_all_right wTrain3 wTrain3 (fun _ => none) 1))
          (wTrain3.cores 2) (wTrain3.cores 2)) :=
  ⟨(claim_C3 wTrain3 wTrain3 (fun _ => none) (by decide)).1,
   (claim_C3 wTrain3 wTrain3 (fun _ => none) (by decide)).2 0 (by decide)⟩

/-- The width of `size_t` on the platform the code targets. -/
def usizeMod : ℕ := 2 ^ 64

/-- The initial value of the unsigned loop counter `ii = a->dim - 3` in
`dmrg_update_all_right` (dmrg.c line 104), computed in `size_t`
arithmetic (wrapping subtraction modulo 2^64). -/
def uar_first_counter (d : ℕ) : ℕ := (d + usizeMod - 3) % usizeMod

/-- The counter values visited by the loop `for (ii = dim-3; ii > 0; ii--)`:
all values from the initial counter down to 1. -/
def uar_loop_counters (d : ℕ) : List ℕ :=
  (List.range (uar_first_counter d)).map (fun i => i + 1)

/-- Every accumulator slot index freed, written or read by
`dmrg_update_all_right` (dmrg.c lines 99-111): slot `dim-2` (size_t
arithmetic), each loop counter `ii` (freed and written) and `ii+1`
(read, again in size_t arithmetic), and slots 0 and 1 accessed by the
final two statements. -/
def uar_accessed (d : ℕ) : List ℕ :=
  ((d + usizeMod - 2) % usizeMod) ::
    (uar_loop_counters d ++
      (uar_loop_counters d).map (fun i => (i + 1) % usizeMod) ++ [0, 1])

/-- C10: `dim >= 3` is a necessary precondition of
`dmrg_update_all_right`: for every dimension `3 <= dim < 2^64`, every
accumulator slot index freed or read during the Psi initialization lies
in the valid range `0..dim-2`; for `dim = 2` the unsigned loop counter
initialized to `dim - 3` underflows to `2^64 - 1`, the loop is entered
(the counter is positive), and the slot it frees lies outside
`0..dim-2`. -/
theorem claim_C10 (d : ℕ) :
    (3 ≤ d → d < usizeMod → ∀ i ∈ uar_accessed d, i ≤ d - 2) ∧
    (d = 2 →
      uar_first_counter d = usizeMod - 1 ∧
      0 < uar_first_counter d ∧
      d - 2 < uar_first_counter d ∧
      uar_first_counter d ∈ uar_loop_counters d) := by
  constructor
  · intro h3 hlt i hi
    have hfc : uar_first_counter d = d - 3 := by
      unfold uar_first_counter
      have : d + usizeMod - 3 = (d - 3) + usizeMod := by omega
      rw [this, Nat.add_mod_right, Nat.mod_eq_of_lt (by omega)]
    have hd2 : (d + usizeMod - 2) % usizeMod = d - 2 := by
      have : d + usizeMod - 2 = (d - 2) + usizeMod := by omega
      rw [this, Nat.add_mod_right, Nat.mod_eq_of_lt (by omega)]
    unfold uar_accessed at hi
    rw [List.mem_cons] at hi
    rcases hi with h | hi
    · omega
    · rw [List.mem_append] at hi
      rcases hi with hi | hi
      · rw [List.mem_append] at hi
        rcases hi with hi | hi
        · unfold uar_loop_counters at hi
          rw [hfc, List.mem_map] at hi
          obtain ⟨x, hx, rfl⟩ := hi
          rw [List.mem_range] at hx
          omega
        · rw [List.mem_map] at hi
          obtain ⟨y, hy, rfl⟩ := hi
          unfold uar_loop_counters at hy
          rw [hfc, List.mem_map] at hy
          obtain ⟨x, hx, rfl⟩ := hy
          rw [List.mem_range] at hx
          rw [Nat.mod_eq_of_lt (by omega)]
          omega
      · simp only [List.mem_cons, List.mem_singleton, List.not_mem_nil,
          or_false] at hi
        omega
  · intro hd
    subst hd
    have hfc : uar_first_counter 2 = usizeMod - 1 := by
      unfold uar_first_counter usizeMod
      norm_num
    refine ⟨hfc, by rw [hfc]; norm_num [usizeMod], by rw [hfc]; norm_num [usizeMod], ?_⟩
    unfold uar_loop_counters
    rw [List.mem_map]
    refine ⟨uar_first_counter 2 - 1, ?_, ?_⟩
    · rw [List.mem_range, hfc]
      norm_num [usizeMod]
    · rw [hfc]
      norm_num [usizeMod]

/-- Witness for C10: at `dim = 5` every accessed slot is within `0..3`,
and at `dim = 2` the counter underflows out of range. -/
theorem claim_C10_witness :
    (∀ i ∈ uar_accessed 5, i ≤ 3) ∧
    (uar_first_counter 2 = usizeMod - 1 ∧
      0 < uar_first_counter 2 ∧
      2 - 2 < uar_first_counter 2 ∧
      uar_first_counter 2 ∈ uar_loop_counters 2) :=
  ⟨(claim_C10 5).1 (by norm_num) (by norm_num [usizeMod]),
   (claim_C10 2).2 rfl⟩

/-- Modelled from the spec: the dense linear-algebra collaborators of
sections 1 and 6, consumed as capability calls and not part of the core
(`qmarray_householder_simple("QR", .)`, `qmarray_householder_simple("LQ", .)`
and `truncated_svd`, none of which are under src/).  `qr A` returns the
orthogonal function block and the numeric `R` factor; `lq A` returns the
numeric `L` factor and the orthogonal function block; `tsvd n A eps`
returns `(rank, u, s, vt)` for the `n x n` column-major buffer `A`. -/
structure LinAlgCap where
  qr : Qmarray → Qmarray × Buf
  lq : Qmarray → Buf × Qmarray
  tsvd : ℕ → Buf → ℚ → ℕ × Buf × Buf × Buf

/-- Section 4.1 shape contract of the Householder factorizations: the
orthogonal function block has the shape of its input. -/
def cap_shape_ok (cap : LinAlgCap) : Prop :=
  (∀ A, ((cap.qr A).1).nrows = A.nrows ∧ ((cap.qr A).1).ncols = A.ncols) ∧
  (∀ A, ((cap.lq A).2).nrows = A.nrows ∧ ((cap.lq A).2).ncols = A.ncols)

/-- A truncated SVD that never truncates: the returned rank equals the
matrix dimension (as with tolerance 0 on a full-rank matrix). -/
def cap_full_rank (cap : LinAlgCap) : Prop :=
  ∀ n M e, (cap.tsvd n M e).1 = n

/-- The square column-major `cblas_dgemm(NoTrans, NoTrans)` product used
for `RL = R * L` in dmrg.c: `RL[j*n+i] = sum_k R[k*n+i] * L[j*n+k]`. -/
def dgemm_nn (n : ℕ) (R L : Buf) : Buf :=
  fun p => ∑ k ∈ Finset.range n, R (k * n + p % n) * L ((p / n) * n + k)

/-- The accumulator arrays of one DMRG run: `phi`/`psi` slots, each a
possibly-NULL numeric buffer, exactly as the `double **` pair of
`dmrg_approx`. -/
structure DmrgMats where
  phi : ℕ → Option Buf
  psi : ℕ → Option Buf

/-- Loop state of the left-right sweep of dmrg.c lines 186-260: the train
under construction, the phi array (mutated in the loop) and the carried
`lsize` variable. -/
structure LrAcc where
  na : FunctionTrain
  phi : ℕ → Option Buf
  lsize : ℕ

/-- One iteration (index `ii`) of the `dmrg_sweep_lr` loop (dmrg.c lines
186-260): build the two super-blocks, LQ/QR them, take the truncated SVD
of `R*L`, store the new rank and core(s), and update `phi[ii+1]`. -/
def lr_step (cap : LinAlgCap) (a b : FunctionTrain) (psi : ℕ → Option Buf)
    (epsilon : ℚ) (acc : LrAcc) (ii : ℕ) : LrAcc :=
  let dimtemp := (b.cores ii).ncols
  let rsize := if ii = a.dim - 2 then 1 else (a.cores (ii + 1)).ncols
  let newcorer := qmam (b.cores (ii + 1)) (bufGet (psi ii)) rsize
  let lql := cap.lq newcorer
  let newcorel := mqma (bufGet (acc.phi ii)) (b.cores ii) acc.lsize
  let qrl := cap.qr newcorel
  let RL := dgemm_nn dimtemp qrl.2 lql.1
  let t := cap.tsvd dimtemp RL epsilon
  let rank := t.1
  let u := t.2.1
  let s := t.2.2.1
  let vt := t.2.2.2
  let na1 : FunctionTrain :=
    { acc.na with
        ranks := setIdx acc.na.ranks (ii + 1) rank
        cores := setIdx acc.na.cores ii (qmam qrl.1 u rank) }
  let na2 : FunctionTrain :=
    if ii + 1 = a.dim - 1 then
      { na1 with
          cores := setIdx na1.cores (ii + 1)
            (mqma (fun p => vt p * s (p % rank)) lql.2 rank) }
    else na1
  let phi2 :=
    if ii < a.dim - 2 then
      setIdx acc.phi (ii + 1)
        (some (dmrg_update_left (bufGet (acc.phi ii)) (na2.cores ii)
          (b.cores ii)))
    else acc.phi
  { na := na2, phi := phi2, lsize := (a.cores ii).ncols }

/-- The left-right sweep loop, ascending over `ii = 0 .. j-1`. -/
def lr_loop (cap : LinAlgCap) (a b : FunctionTrain) (psi : ℕ → Option Buf)
    (epsilon : ℚ) : ℕ → LrAcc → LrAcc
  | 0, acc => acc
  | j + 1, acc => lr_step cap a b psi epsilon (lr_loop cap a b psi epsilon j acc) j

/-- Entry state of `dmrg_sweep_lr` (dmrg.c lines 175-185): fresh train with
boundary ranks set to 1, `phi[0]` initialized to the 1x1 matrix [1.0]
when it is NULL, and `lsize = 1`. -/
def lr_init (a : FunctionTrain) (phi : ℕ → Option Buf) : LrAcc :=
  { na :=
      { function_train_alloc a.dim with
          ranks := setIdx (setIdx (function_train_alloc a.dim).ranks 0 1) a.dim 1 }
    phi :=
      match phi 0 with
      | none => setIdx phi 0 (some one_buf)
      | some _ => phi
    lsize := 1 }

/-- State of the sweep loop after its first `j` iterations. -/
def lr_run (cap : LinAlgCap) (a b : FunctionTrain) (st : DmrgMats)
    (epsilon : ℚ) (j : ℕ) : LrAcc :=
  lr_loop cap a b st.psi epsilon j (lr_init a st.phi)

/-- `dmrg_sweep_lr` (dmrg.c lines 166-263): run the loop over
`ii = 0 .. dim-2` and return the new train; `psi` is only read. -/
def dmrg_sweep_lr (cap : LinAlgCap) (a b : FunctionTrain) (st : DmrgMats)
    (epsilon : ℚ) : FunctionTrain × DmrgMats :=
  let r := lr_run cap a b st epsilon (a.dim - 1)
  (r.na, { phi := r.phi, psi := st.psi })

/-- Loop state of the right-left sweep of dmrg.c lines 297-377. -/
structure RlAcc where
  na : FunctionTrain
  psi : ℕ → Option Buf
  rsize : ℕ

/-- One iteration (index `ii`) of the `dmrg_sweep_rl` loop (dmrg.c lines
297-377): mirror image of `lr_step`, updating `psi[ii-1]` and producing
`core[0]` at the final step `ii = 0`. -/
def rl_step (cap : LinAlgCap) (a b : FunctionTrain) (phi : ℕ → Option Buf)
    (epsilon : ℚ) (acc : RlAcc) (ii : ℕ) : RlAcc :=
  let dimtemp := (b.cores ii).ncols
  let lsize := if ii = 0 then 1 else (a.cores (ii - 1)).ncols
  let newcorer := qmam (b.cores (ii + 1)) (bufGet (acc.psi ii)) acc.rsize
  let lql := cap.lq newcorer
  let newcorel := mqma (bufGet (phi ii)) (b.cores ii) lsize
  let qrl := cap.qr newcorel
  let RL := dgemm_nn dimtemp qrl.2 lql.1
  let t := cap.tsvd dimtemp RL epsilon
  let rank := t.1
  let u := t.2.1
  let s := t.2.2.1
  let vt := t.2.2.2
  let na1 : FunctionTrain :=
    { acc.na with
        ranks := setIdx acc.na.ranks (ii + 1) rank
        cores := setIdx acc.na.cores (ii + 1) (mqma vt lql.2 rank) }
  let na2 : FunctionTrain :=
    if ii = 0 then
      { na1 with
          cores := setIdx na1.cores 0
            (qmam qrl.1 (fun p => u p * s (p / dimtemp)) rank) }
    else na1
  let psi2 :=
    if 0 < ii then
      setIdx acc.psi (ii - 1)
        (some (dmrg_update_right (bufGet (acc.psi ii)) (b.cores (ii + 1))
          (na2.cores (ii + 1))))
    else acc.psi
  { na := na2, psi := psi2, rsize := (a.cores (ii + 1)).nrows }

/-- The right-left sweep loop: `rl_loop (j+1)` processes index `j` first
and then descends, so `rl_loop (dim-1)` runs `ii = dim-2` down to 0. -/
def rl_loop (cap : LinAlgCap) (a b : FunctionTrain) (phi : ℕ → Option Buf)
    (epsilon : ℚ) : ℕ → RlAcc → RlAcc
  | 0, acc => acc
  | j + 1, acc => rl_loop cap a b phi epsilon j (rl_step cap a b phi epsilon acc j)

/-- Entry state of `dmrg_sweep_rl` (dmrg.c lines 285-296): fresh train with
boundary ranks set to 1, `psi[dim-2]` initialized to the 1x1 matrix
[1.0] when it is NULL, and `rsize = 1`. -/
def rl_init (a : FunctionTrain) (psi : ℕ → Option Buf) : RlAcc :=
  { na :=
      { function_train_alloc a.dim with
          ranks := setIdx (setIdx (function_train_alloc a.dim).ranks 0 1) a.dim 1 }
    psi :=
      match psi (a.dim - 2) with
      | none => setIdx psi (a.dim - 2) (some one_buf)
      | some _ => psi
    rsize := 1 }

/-- `dmrg_sweep_rl` (dmrg.c lines 276-379): run the loop over
`ii = dim-2 .. 0` and return the new train; `phi` is only read. -/
def dmrg_sweep_rl (cap : LinAlgCap) (a b : FunctionTrain) (st : DmrgMats)
    (epsilon : ℚ) : FunctionTrain × DmrgMats :=
  let r := rl_loop cap a b st.phi epsilon (a.dim - 1) (rl_init a st.psi)
  (r.na, { phi := st.phi, psi := r.psi })

/-- `dmrg_sweep_lrl` (dmrg.c lines 392-401): one left-right sweep followed
by one right-left sweep applied to its output. -/
def dmrg_sweep_lrl (cap : LinAlgCap) (a b : FunctionTrain) (st : DmrgMats)
    (epsilon : ℚ) : FunctionTrain × DmrgMats :=
  let temp := dmrg_sweep_lr cap a b st epsilon
  dmrg_sweep_rl cap temp.1 b temp.2 epsilon

/-- One step of the right-orthogonalization sweep at position `k`:
LQ-factor core `k`, replace it by the orthogonal block and absorb the
numeric `L` factor into core `k-1`. -/
def orthor_step (cap : LinAlgCap) (cs : ℕ → Qmarray) (k : ℕ) : ℕ → Qmarray :=
  let lq := cap.lq (cs k)
  setIdx (setIdx cs k lq.2) (k - 1) (qmam (cs (k - 1)) lq.1 (cs k).nrows)

/-- The right-orthogonalization loop, `k = j` down to 1. -/
def orthor_loop (cap : LinAlgCap) : ℕ → (ℕ → Qmarray) → ℕ → Qmarray
  | 0, cs => cs
  | j + 1, cs => orthor_loop cap j (orthor_step cap cs (j + 1))

/-- Modelled from the spec: `function_train_orthor` (not under src/;
section 4.3 right-orthogonalization sweep, `k = dim-1` down to 1). -/
def function_train_orthor (cap : LinAlgCap) (f : FunctionTrain) :
    FunctionTrain :=
  { f with cores := orthor_loop cap (f.dim - 1) f.cores }

/-- One iteration of the `dmrg_approx` loop (dmrg.c lines 432-450): run an
LRL sweep, compute the stubbed convergence measure `diff = 10` (the
branch on `diff < delta` only prints, so both branches continue
identically), and copy the new train into the current guess. -/
def dmrg_step (cap : LinAlgCap) (b : FunctionTrain) (delta epsilon : ℚ)
    (s : Option FunctionTrain × FunctionTrain × DmrgMats) :
    Option FunctionTrain × FunctionTrain × DmrgMats :=
  let p := dmrg_sweep_lrl cap s.2.1 b s.2.2 epsilon
  let diff : ℚ := 10
  let ao := if diff < delta then function_train_copy p.1
            else function_train_copy p.1
  (some p.1, ao, p.2)

/-- The state of the `dmrg_approx` loop: last produced train (`na`, NULL
before the first iteration), current guess, accumulators. -/
def dmrg_init_mats (cap : LinAlgCap) (a b : FunctionTrain) : DmrgMats :=
  { phi := fun _ => none
    psi := dmrg_update_all_right b (function_train_orthor cap a) (fun _ => none) }

/-- The `dmrg_approx` loop state after `n` iterations. -/
def dmrg_run (cap : LinAlgCap) (a b : FunctionTrain) (delta epsilon : ℚ)
    (n : ℕ) : Option FunctionTrain × FunctionTrain × DmrgMats :=
  (dmrg_step cap b delta epsilon)^[n]
    (none, function_train_orthor cap a, dmrg_init_mats cap a b)

/-- `dmrg_approx` (dmrg.c lines 409-460): right-orthogonalize the guess,
initialize the right accumulators, run `max_sweeps` LRL iterations and
return the train of the last one (NULL when `max_sweeps = 0`). -/
def dmrg_approx (cap : LinAlgCap) (a b : FunctionTrain) (delta : ℚ)
    (max_sweeps : ℕ) (epsilon : ℚ) : Option FunctionTrain :=
  (dmrg_run cap a b delta epsilon max_sweeps).1

@[simp] lemma qmam_nrows (A : Qmarray) (m : Buf) (c : ℕ) :
    (qmam A m c).nrows = A.nrows := rfl

@[simp] lemma qmam_ncols (A : Qmarray) (m : Buf) (c : ℕ) :
    (qmam A m c).ncols = c := rfl

@[simp] lemma mqma_nrows (m : Buf) (A : Qmarray) (r : ℕ) :
    (mqma m A r).nrows = r := rfl

@[simp] lemma mqma_ncols (m : Buf) (A : Qmarray) (r : ℕ) :
    (mqma m A r).ncols = A.ncols := rfl

lemma lr_loop_succ (cap : LinAlgCap) (a b : FunctionTrain)
    (psi : ℕ → Option Buf) (epsilon : ℚ) (j : ℕ) (acc : LrAcc) :
    lr_loop cap a b psi epsilon (j + 1) acc =
      lr_step cap a b psi epsilon (lr_loop cap a b psi epsilon j acc) j := rfl

lemma rl_loop_succ (cap : LinAlgCap) (a b : FunctionTrain)
    (phi : ℕ → Option Buf) (epsilon : ℚ) (j : ℕ) (acc : RlAcc) :
    rl_loop cap a b phi epsilon (j + 1) acc =
      rl_loop cap a b phi epsilon j (rl_step cap a b phi epsilon acc j) := rfl

/-- The claim-side LRL iteration of C1: carry (current guess,
accumulators), apply one LRL sweep and continue with its output. -/
def lrl_iterate (cap : LinAlgCap) (b : FunctionTrain) (epsilon : ℚ)
    (s : FunctionTrain × DmrgMats) : FunctionTrain × DmrgMats :=
  dmrg_sweep_lrl cap s.1 b s.2 epsilon

lemma dmrg_step_eq (cap : LinAlgCap) (b : FunctionTrain) (delta epsilon : ℚ) :
    dmrg_step cap b delta epsilon = fun s =>
      (some (dmrg_sweep_lrl cap s.2.1 b s.2.2 epsilon).1,
       (dmrg_sweep_lrl cap s.2.1 b s.2.2 epsilon).1,
       (dmrg_sweep_lrl cap s.2.1 b s.2.2 epsilon).2) := by
  funext s
  simp only [dmrg_step, function_train_copy, ite_self]

lemma dmrg_run_eq (cap : LinAlgCap) (a b : FunctionTrain)
    (delta epsilon : ℚ) :
    ∀ n, 1 ≤ n →
      dmrg_run cap a b delta epsilon n =
        (some ((lrl_iterate cap b epsilon)^[n]
            (function_train_orthor cap a, dmrg_init_mats cap a b)).1,
         ((lrl_iterate cap b epsilon)^[n]
            (function_train_orthor cap a, dmrg_init_mats cap a b)).1,
         ((lrl_iterate cap b epsilon)^[n]
            (function_train_orthor cap a, dmrg_init_mats cap a b)).2) := by
  intro n
  induction n with
  | zero => intro h; omega
  | succ m ih =>
      intro _
      rcases Nat.eq_zero_or_pos m with rfl | hm
      · simp only [dmrg_run, dmrg_step_eq, zero_add, Function.iterate_one,
          lrl_iterate]
      · have hrun : dmrg_run cap a b delta epsilon (m + 1) =
            dmrg_step cap b delta epsilon (dmrg_run cap a b delta epsilon m) := by
          simp only [dmrg_run, Function.iterate_succ_apply']
        rw [hrun, ih hm, dmrg_step_eq]
        simp only [Function.iterate_succ_apply', lrl_iterate]

/-- C1: `dmrg_approx` ignores the tolerance `delta` entirely (the stubbed
convergence check never terminates the loop early and signals nothing),
an LRL step is one left-right sweep followed by one right-left sweep on
its output, and for every budget `max_sweeps >= 1` the returned train is
the one produced by the `max_sweeps`-th LRL iteration. -/
theorem claim_C1 (cap : LinAlgCap) (a b : FunctionTrain)
    (delta : ℚ) (n : ℕ) (epsilon : ℚ) :
    (∀ delta2 : ℚ,
      dmrg_approx cap a b delta n epsilon =
        dmrg_approx cap a b delta2 n epsilon) ∧
    (∀ (g : FunctionTrain) (st : DmrgMats),
      dmrg_sweep_lrl cap g b st epsilon =
        dmrg_sweep_rl cap (dmrg_sweep_lr cap g b st epsilon).1 b
          (dmrg_sweep_lr cap g b st epsilon).2 epsilon) ∧
    (1 ≤ n →
      dmrg_approx cap a b delta n epsilon =
        some ((lrl_iterate cap b epsilon)^[n]
          (function_train_orthor cap a, dmrg_init_mats cap a b)).1) := by
  refine ⟨?_, fun g st => rfl, ?_⟩
  · intro delta2
    show (dmrg_run cap a b delta epsilon n).1 =
      (dmrg_run cap a b delta2 epsilon n).1
    unfold dmrg_run
    rw [dmrg_step_eq cap b delta epsilon, dmrg_step_eq cap b delta2 epsilon]
  · intro hn
    show (dmrg_run cap a b delta epsilon n).1 = _
    rw [dmrg_run_eq cap a b delta epsilon n hn]

/-- A trivial instance of the dense linear algebra capability, used only
to witness the theorems at concrete inputs. -/
def capW : LinAlgCap :=
  { qr := fun A => (A, fun _ => 0)
    lq := fun A => (fun _ => 0, A)
    tsvd := fun n _ _ => (n, fun _ => 0, fun _ => 0, fun _ => 0) }

/-- Witness for C1 at a concrete capability, trains, tolerances and a
budget of 2 sweeps. -/
theorem claim_C1_witness :
    (dmrg_approx capW wTrain3 wTrain3 0 2 1 =
      dmrg_approx capW wTrain3 wTrain3 5 2 1) ∧
    (dmrg_approx capW wTrain3 wTrain3 0 2 1 =
      some ((lrl_iterate capW wTrain3 1)^[2]
        (function_train_orthor capW wTrain3,
         dmrg_init_mats capW wTrain3 wTrain3)).1) :=
  ⟨(claim_C1 capW wTrain3 wTrain3 0 2 1).1 5,
   (claim_C1 capW wTrain3 wTrain3 0 2 1).2.2 (by decide)⟩

lemma lr_step_phi_frame (cap : LinAlgCap) (a b : FunctionTrain)
    (psi : ℕ → Option Buf) (epsilon : ℚ) (acc : LrAcc) (ii k : ℕ)
    (hk : ii < a.dim - 2 → k ≠ ii + 1) :
    (lr_step cap a b psi epsilon acc ii).phi k = acc.phi k := by
  unfold lr_step
  dsimp only
  split
  · rename_i h
    unfold setIdx
    rw [if_neg (hk h)]
  · rfl

lemma lr_loop_phi_frame (cap : LinAlgCap) (a b : FunctionTrain)
    (psi : ℕ → Option Buf) (epsilon : ℚ) (k : ℕ)
    (hk : k = 0 ∨ a.dim - 2 < k) :
    ∀ j acc, (lr_loop cap a b psi epsilon j acc).phi k = acc.phi k := by
  intro j
  induction j with
  | zero => intro acc; rfl
  | succ j ih =>
      intro acc
      rw [lr_loop_succ]
      rw [lr_step_phi_frame cap a b psi epsilon _ j k (fun h => by omega), ih]

lemma rl_step_psi_frame (cap : LinAlgCap) (a b : FunctionTrain)
    (phi : ℕ → Option Buf) (epsilon : ℚ) (acc : RlAcc) (ii k : ℕ)
    (hk : ii = 0 ∨ k ≠ ii - 1) :
    (rl_step cap a b phi epsilon acc ii).psi k = acc.psi k := by
  unfold rl_step
  dsimp only
  split
  · rename_i h0
    unfold setIdx
    rw [if_neg]
    rcases hk with rfl | hk
    · omega
    · exact hk
  · rfl

lemma rl_loop_psi_frame (cap : LinAlgCap) (a b : FunctionTrain)
    (phi : ℕ → Option Buf) (epsilon : ℚ) (k : ℕ)
    (hk : a.dim - 2 ≤ k) :
    ∀ j acc, j ≤ a.dim - 1 →
      (rl_loop cap a b phi epsilon j acc).psi k = acc.psi k := by
  intro j
  induction j with
  | zero => intro acc _; rfl
  | succ j ih =>
      intro acc hj
      rw [rl_loop_succ, ih _ (by omega)]
      exact rl_step_psi_frame cap a b phi epsilon acc j k (by omega)

/-- C8: a left-right sweep writes only the `phi` array (interior slots,
plus the one-time `phi[0]` boundary initialization when it was NULL) and
leaves `psi` untouched; the right-left sweep is the mirror image, writing
only `psi` (slots below `dim-2`, plus the one-time `psi[dim-2]` boundary
initialization) and leaving `phi` untouched. -/
theorem claim_C8 (cap : LinAlgCap) (a b : FunctionTrain) (st : DmrgMats)
    (epsilon : ℚ) :
    ((dmrg_sweep_lr cap a b st epsilon).2.psi = st.psi) ∧
    (∀ M, st.phi 0 = some M →
      (dmrg_sweep_lr cap a b st epsilon).2.phi 0 = some M) ∧
    (st.phi 0 = none →
      (dmrg_sweep_lr cap a b st epsilon).2.phi 0 = some one_buf) ∧
    (∀ k, a.dim - 2 < k →
      (dmrg_sweep_lr cap a b st epsilon).2.phi k = st.phi k) ∧
    ((dmrg_sweep_rl cap a b st epsilon).2.phi = st.phi) ∧
    (∀ M, st.psi (a.dim - 2) = some M →
      (dmrg_sweep_rl cap a b st epsilon).2.psi (a.dim - 2) = some M) ∧
    (st.psi (a.dim - 2) = none →
      (dmrg_sweep_rl cap a b st epsilon).2.psi (a.dim - 2) = some one_buf) ∧
    (∀ k, a.dim - 2 < k →
      (dmrg_sweep_rl cap a b st epsilon).2.psi k = st.psi k) := by
  have hlr : ∀ k, k = 0 ∨ a.dim - 2 < k →
      (dmrg_sweep_lr cap a b st epsilon).2.phi k = (lr_init a st.phi).phi k := by
    intro k hk
    exact lr_loop_phi_frame cap a b st.psi epsilon k hk (a.dim - 1) _
  have hrl : ∀ k, a.dim - 2 ≤ k →
      (dmrg_sweep_rl cap a b st epsilon).2.psi k = (rl_init a st.psi).psi k := by
    intro k hk
    exact rl_loop_psi_frame cap a b st.phi epsilon k hk (a.dim - 1) _ (le_refl _)
  refine ⟨rfl, ?_, ?_, ?_, rfl, ?_, ?_, ?_⟩
  · intro M hM
    rw [hlr 0 (Or.inl rfl)]
    unfold lr_init
    dsimp only
    rw [hM]
    exact hM
  · intro hM
    rw [hlr 0 (Or.inl rfl)]
    unfold lr_init
    dsimp only
    rw [hM]
    rfl
  · intro k hk
    rw [hlr k (Or.inr hk)]
    unfold lr_init
    dsimp only
    cases hphi : st.phi 0 with
    | none =>
        show (if k = 0 then some one_buf else st.phi k) = st.phi k
        rw [if_neg (by omega : ¬ k = 0)]
    | some M => rfl
  · intro M hM
    rw [hrl _ (le_refl _)]
    unfold rl_init
    dsimp only
    rw [hM]
    exact hM
  · intro hM
    rw [hrl _ (le_refl _)]
    unfold rl_init
    dsimp only
    rw [hM]
    show (if a.dim - 2 = a.dim - 2 then some one_buf else st.psi (a.dim - 2)) =
      some one_buf
    rw [if_pos rfl]
  · intro k hk
    rw [hrl k (by omega)]
    unfold rl_init
    dsimp only
    cases hpsi : st.psi (a.dim - 2) with
    | none =>
        show (if k = a.dim - 2 then some one_buf else st.psi k) = st.psi k
        rw [if_neg (by omega : ¬ k = a.dim - 2)]
    | some M => rfl

/-- Witness for C8 at a concrete capability, trains and accumulator state
(with `phi[0]` set and `psi[dim-2]` NULL). -/
theorem claim_C8_witness :
    ((dmrg_sweep_lr capW wTrain3 wTrain3
        { phi := setIdx (fun _ => none) 0 (some one_buf), psi := fun _ => none }
        1).2.psi = (fun _ => none)) ∧
    ((dmrg_sweep_lr capW wTrain3 wTrain3
        { phi := setIdx (fun _ => none) 0 (some one_buf), psi := fun _ => none }
        1).2.phi 0 = some one_buf) ∧
    ((dmrg_sweep_rl capW wTrain3 wTrain3
        { phi := setIdx (fun _ => none) 0 (some one_buf), psi := fun _ => none }
        1).2.psi (wTrain3.dim - 2) = some one_buf) ∧
    ((dmrg_sweep_rl capW wTrain3 wTrain3
        { phi := setIdx (fun _ => none) 0 (some one_buf), psi := fun _ => none }
        1).2.psi 5 = none) :=
  ⟨(claim_C8 capW wTrain3 wTrain3 _ 1).1,
   (claim_C8 capW wTrain3 wTrain3 _ 1).2.1 one_buf rfl,
   (claim_C8 capW wTrain3 wTrain3 _ 1).2.2.2.2.2.2.1 rfl,
   (claim_C8 capW wTrain3 wTrain3 _ 1).2.2.2.2.2.2.2 5 (by decide)⟩

lemma lr_step_na_dim (cap : LinAlgCap) (a b : FunctionTrain)
    (psi : ℕ → Option Buf) (epsilon : ℚ) (acc : LrAcc) (ii : ℕ) :
    (lr_step cap a b psi epsilon acc ii).na.dim = acc.na.dim := by
  unfold lr_step
  dsimp only
  split <;> rfl

lemma lr_loop_na_dim (cap : LinAlgCap) (a b : FunctionTrain)
    (psi : ℕ → Option Buf) (epsilon : ℚ) :
    ∀ j acc, (lr_loop cap a b psi epsilon j acc).na.dim = acc.na.dim := by
  intro j
  induction j with
  | zero => intro acc; rfl
  | succ j ih =>
      intro acc
      rw [lr_loop_succ, lr_step_na_dim, ih]

lemma dmrg_sweep_lr_dim (cap : LinAlgCap) (a b : FunctionTrain)
    (st : DmrgMats) (epsilon : ℚ) :
    (dmrg_sweep_lr cap a b st epsilon).1.dim = a.dim := by
  show (lr_run cap a b st epsilon (a.dim - 1)).na.dim = a.dim
  unfold lr_run
  rw [lr_loop_na_dim]
  rfl

lemma rl_step_na_dim (cap : LinAlgCap) (a b : FunctionTrain)
    (phi : ℕ → Option Buf) (epsilon : ℚ) (acc : RlAcc) (ii : ℕ) :
    (rl_step cap a b phi epsilon acc ii).na.dim = acc.na.dim := by
  unfold rl_step
  dsimp only
  split <;> rfl

lemma rl_loop_na_dim (cap : LinAlgCap) (a b : FunctionTrain)
    (phi : ℕ → Option Buf) (epsilon : ℚ) :
    ∀ j acc, (rl_loop cap a b phi epsilon j acc).na.dim = acc.na.dim := by
  intro j
  induction j with
  | zero => intro acc; rfl
  | succ j ih =>
      intro acc
      rw [rl_loop_succ, ih, rl_step_na_dim]

lemma dmrg_sweep_rl_dim (cap : LinAlgCap) (a b : FunctionTrain)
    (st : DmrgMats) (epsilon : ℚ) :
    (dmrg_sweep_rl cap a b st epsilon).1.dim = a.dim := by
  show (rl_loop cap a b st.phi epsilon (a.dim - 1) (rl_init a st.psi)).na.dim = a.dim
  rw [rl_loop_na_dim]
  rfl

lemma dmrg_sweep_lrl_dim (cap : LinAlgCap) (a b : FunctionTrain)
    (st : DmrgMats) (epsilon : ℚ) :
    (dmrg_sweep_lrl cap a b st epsilon).1.dim = a.dim := by
  unfold dmrg_sweep_lrl
  rw [dmrg_sweep_rl_dim, dmrg_sweep_lr_dim]

lemma dmrg_init_mats_psi_boundary (cap : LinAlgCap) (a b : FunctionTrain)
    (h3 : 3 ≤ a.dim) (hd : a.dim = b.dim) :
    (dmrg_init_mats cap a b).psi (a.dim - 2) = some one_buf := by
  unfold dmrg_init_mats dmrg_update_all_right
  dsimp only
  rw [if_pos (by omega)]
  have h0 : b.dim - 2 - (a.dim - 2) = 0 := by omega
  rw [h0]
  rfl

lemma dmrg_sweep_lr_keeps_psi (cap : LinAlgCap) (a b : FunctionTrain)
    (st : DmrgMats) (epsilon : ℚ) :
    (dmrg_sweep_lr cap a b st epsilon).2.psi = st.psi := rfl

lemma dmrg_sweep_lr_phi0 (cap : LinAlgCap) (a b : FunctionTrain)
    (st : DmrgMats) (epsilon : ℚ) :
    (dmrg_sweep_lr cap a b st epsilon).2.phi 0 =
      (match st.phi 0 with
       | none => some one_buf
       | some M => some M) := by
  have h := lr_loop_phi_frame cap a b st.psi epsilon 0 (Or.inl rfl) (a.dim - 1)
    (lr_init a st.phi)
  show (lr_run cap a b st epsilon (a.dim - 1)).phi 0 = _
  unfold lr_run
  rw [h]
  unfold lr_init
  dsimp only
  cases hphi : st.phi 0 with
  | none => rfl
  | some M => exact hphi

lemma dmrg_sweep_rl_psi_boundary (cap : LinAlgCap) (a b : FunctionTrain)
    (st : DmrgMats) (epsilon : ℚ) (k : ℕ) (hk : a.dim - 2 ≤ k) :
    (dmrg_sweep_rl cap a b st epsilon).2.psi k =
      (rl_init a st.psi).psi k := by
  exact rl_loop_psi_frame cap a b st.phi epsilon k hk (a.dim - 1) _ (le_refl _)

/-- C7: throughout one `dmrg_approx` run, the boundary accumulators keep
the value 1.0: `psi[dim-2]` is the 1x1 matrix [1.0] from the one-time
initialization on, `phi[0]` is the 1x1 matrix [1.0] from the first sweep
on, and no sweep overwrites either with a different value. -/
theorem claim_C7 (cap : LinAlgCap) (a b : FunctionTrain) (delta epsilon : ℚ)
    (h3 : 3 ≤ a.dim) (hd : a.dim = b.dim) :
    (∀ n,
      (dmrg_run cap a b delta epsilon n).2.2.psi (a.dim - 2) = some one_buf ∧
      (1 ≤ n →
        (dmrg_run cap a b delta epsilon n).2.2.phi 0 = some one_buf)) ∧
    (∀ (g : FunctionTrain) (st : DmrgMats), st.phi 0 = some one_buf →
      (dmrg_sweep_lr cap g b st epsilon).2.phi 0 = some one_buf) ∧
    (∀ (g : FunctionTrain) (st : DmrgMats), g.dim = a.dim →
      st.psi (a.dim - 2) = some one_buf →
      (dmrg_sweep_rl cap g b st epsilon).2.psi (a.dim - 2) = some one_buf) := by
  have lr_keep : ∀ (g : FunctionTrain) (st : DmrgMats),
      st.phi 0 = some one_buf →
      (dmrg_sweep_lr cap g b st epsilon).2.phi 0 = some one_buf := by
    intro g st h
    rw [dmrg_sweep_lr_phi0, h]
  have rl_keep : ∀ (g : FunctionTrain) (st : DmrgMats), g.dim = a.dim →
      st.psi (a.dim - 2) = some one_buf →
      (dmrg_sweep_rl cap g b st epsilon).2.psi (a.dim - 2) = some one_buf := by
    intro g st hg h
    rw [dmrg_sweep_rl_psi_boundary cap g b st epsilon (a.dim - 2) (by omega)]
    unfold rl_init
    dsimp only
    rw [hg, h]
    exact h
  refine ⟨?_, lr_keep, rl_keep⟩
  have main : ∀ n,
      (dmrg_run cap a b delta epsilon n).2.1.dim = a.dim ∧
      (dmrg_run cap a b delta epsilon n).2.2.psi (a.dim - 2) = some one_buf ∧
      ((dmrg_run cap a b delta epsilon n).2.2.phi 0 = none ∨
        (dmrg_run cap a b delta epsilon n).2.2.phi 0 = some one_buf) ∧
      (1 ≤ n →
        (dmrg_run cap a b delta epsilon n).2.2.phi 0 = some one_buf) := by
    intro n
    induction n with
    | zero =>
        refine ⟨rfl, dmrg_init_mats_psi_boundary cap a b h3 hd, Or.inl rfl,
          by omega⟩
    | succ m ih =>
        obtain ⟨ihdim, ihpsi, ihphi, _⟩ := ih
        have hstep : dmrg_run cap a b delta epsilon (m + 1) =
            dmrg_step cap b delta epsilon (dmrg_run cap a b delta epsilon m) := by
          simp only [dmrg_run, Function.iterate_succ_apply']
        set s := dmrg_run cap a b delta epsilon m with hs
        have hout : (dmrg_step cap b delta epsilon s).2.2 =
            (dmrg_sweep_lrl cap s.2.1 b s.2.2 epsilon).2 := by
          rw [dmrg_step_eq]
        have houtg : (dmrg_step cap b delta epsilon s).2.1 =
            (dmrg_sweep_lrl cap s.2.1 b s.2.2 epsilon).1 := by
          rw [dmrg_step_eq]
        have hlrl : (dmrg_sweep_lrl cap s.2.1 b s.2.2 epsilon).2 =
            (dmrg_sweep_rl cap (dmrg_sweep_lr cap s.2.1 b s.2.2 epsilon).1 b
              (dmrg_sweep_lr cap s.2.1 b s.2.2 epsilon).2 epsilon).2 := rfl
        have hlrphi0 : (dmrg_sweep_lr cap s.2.1 b s.2.2 epsilon).2.phi 0 =
            some one_buf := by
          rw [dmrg_sweep_lr_phi0]
          rcases ihphi with h | h
          · rw [h]
          · rw [h]
        have hlrpsi : (dmrg_sweep_lr cap s.2.1 b s.2.2 epsilon).2.psi =
            s.2.2.psi := rfl
        have hlrdim : (dmrg_sweep_lr cap s.2.1 b s.2.2 epsilon).1.dim =
            a.dim := by
          rw [dmrg_sweep_lr_dim, ihdim]
        have hpsi1 : (dmrg_sweep_lrl cap s.2.1 b s.2.2 epsilon).2.psi
            (a.dim - 2) = some one_buf := by
          rw [hlrl]
          exact rl_keep _ _ hlrdim (by rw [hlrpsi]; exact ihpsi)
        have hphi1 : (dmrg_sweep_lrl cap s.2.1 b s.2.2 epsilon).2.phi 0 =
            some one_buf := by
          rw [hlrl]
          show (dmrg_sweep_lr cap s.2.1 b s.2.2 epsilon).2.phi 0 = some one_buf
          exact hlrphi0
        refine ⟨?_, ?_, ?_, ?_⟩
        · rw [hstep, houtg, dmrg_sweep_lrl_dim, ihdim]
        · rw [hstep, hout]
          exact hpsi1
        · rw [hstep, hout]
          exact Or.inr hphi1
        · intro _
          rw [hstep, hout]
          exact hphi1
  intro n
  exact ⟨(main n).2.1, (main n).2.2.2⟩

/-- Witness for C7 at a concrete capability and dimension-3 trains, after
two iterations. -/
theorem claim_C7_witness :
    ((dmrg_run capW wTrain3 wTrain3 0 1 2).2.2.psi (wTrain3.dim - 2) =
        some one_buf ∧
      (dmrg_run capW wTrain3 wTrain3 0 1 2).2.2.phi 0 = some one_buf) :=
  ⟨((claim_C7 capW wTrain3 wTrain3 0 1 (by decide) rfl).1 2).1,
   ((claim_C7 capW wTrain3 wTrain3 0 1 (by decide) rfl).1 2).2 (by decide)⟩

/-- The left super-block of C2 at step `k`: `target.core[k]` left-multiplied
by the accumulated left overlap `Phi[k]` as it stands before step `k`. -/
def lr_super_left (cap : LinAlgCap) (a b : FunctionTrain) (st : DmrgMats)
    (epsilon : ℚ) (k : ℕ) : Qmarray :=
  mqma (bufGet ((lr_run cap a b st epsilon k).phi k)) (b.cores k)
    (lr_run cap a b st epsilon k).lsize

/-- The right super-block of C2 at step `k`: `target.core[k+1]`
right-multiplied by the accumulated right overlap `Psi[k]`. -/
def lr_super_right (cap : LinAlgCap) (a b : FunctionTrain) (st : DmrgMats)
    (epsilon : ℚ) (k : ℕ) : Qmarray :=
  qmam (b.cores (k + 1)) (bufGet (st.psi k))
    (if k = a.dim - 2 then 1 else (a.cores (k + 1)).ncols)

/-- The truncated SVD of C2 at step `k`: applied to the product `R * L` of
the numeric QR factor of the left super-block and the numeric LQ factor
of the right super-block, at size `dimtemp = target.core[k].ncols`. -/
def lr_svd (cap : LinAlgCap) (a b : FunctionTrain) (st : DmrgMats)
    (epsilon : ℚ) (k : ℕ) : ℕ × Buf × Buf × Buf :=
  cap.tsvd (b.cores k).ncols
    (dgemm_nn (b.cores k).ncols
      (cap.qr (lr_super_left cap a b st epsilon k)).2
      (cap.lq (lr_super_right cap a b st epsilon k)).1) epsilon

/-- C2: at every step `k` of a left-to-right DMRG sweep, the algorithm
forms the two super-blocks, Householder-QR/LQ factors them (both numeric
factors being `dimtemp x dimtemp` with `dimtemp = target.core[k].ncols`:
the left super-block has `dimtemp` columns and the right one `dimtemp`
rows), sets the new rank at cut `k+1` to the rank of the truncated SVD of
`R*L` at tolerance `epsilon`, sets the new guess core `k` to the left
orthogonal block times `U`, and produces guess core `k+1` (as the
S-scaled `V^T` times the right orthogonal block) only at the last step
`k = dim-2`; the sweep is the iteration of exactly these steps. -/
theorem claim_C2 (cap : LinAlgCap) (a b : FunctionTrain) (st : DmrgMats)
    (epsilon : ℚ) (k : ℕ) (hb : ft_invariant b) (hd : a.dim = b.dim)
    (hk : k < a.dim - 1) :
    ((lr_super_left cap a b st epsilon k).ncols = (b.cores k).ncols ∧
     (lr_super_right cap a b st epsilon k).nrows = (b.cores k).ncols) ∧
    ((lr_run cap a b st epsilon (k + 1)).na.ranks (k + 1) =
      (lr_svd cap a b st epsilon k).1) ∧
    ((lr_run cap a b st epsilon (k + 1)).na.cores k =
      qmam (cap.qr (lr_super_left cap a b st epsilon k)).1
        (lr_svd cap a b st epsilon k).2.1 (lr_svd cap a b st epsilon k).1) ∧
    (k + 1 = a.dim - 1 →
      (lr_run cap a b st epsilon (k + 1)).na.cores (k + 1) =
        mqma
          (fun p => (lr_svd cap a b st epsilon k).2.2.2 p *
            (lr_svd cap a b st epsilon k).2.2.1
              (p % (lr_svd cap a b st epsilon k).1))
          (cap.lq (lr_super_right cap a b st epsilon k)).2
          (lr_svd cap a b st epsilon k).1) ∧
    (k + 1 < a.dim - 1 →
      (lr_run cap a b st epsilon (k + 1)).na.cores (k + 1) =
        (lr_run cap a b st epsilon k).na.cores (k + 1)) ∧
    (dmrg_sweep_lr cap a b st epsilon).1 =
      (lr_run cap a b st epsilon (a.dim - 1)).na := by
  have hk1 : k + 1 < b.dim := by omega
  have hkb : k < b.dim := by omega
  refine ⟨⟨rfl, ?_⟩, ?_, ?_, ?_, ?_, rfl⟩
  · show (b.cores (k + 1)).nrows = (b.cores k).ncols
    rw [(hb.2.2 (k + 1) hk1).1, (hb.2.2 k hkb).2]
  · show (lr_step cap a b st.psi epsilon (lr_run cap a b st epsilon k) k).na.ranks
      (k + 1) = (lr_svd cap a b st epsilon k).1
    unfold lr_step
    dsimp only
    split
    · show setIdx (lr_run cap a b st epsilon k).na.ranks (k + 1) _ (k + 1) = _
      unfold setIdx
      rw [if_pos rfl]
      rfl
    · show setIdx (lr_run cap a b st epsilon k).na.ranks (k + 1) _ (k + 1) = _
      unfold setIdx
      rw [if_pos rfl]
      rfl
  · show (lr_step cap a b st.psi epsilon (lr_run cap a b st epsilon k) k).na.cores
      k = _
    unfold lr_step
    dsimp only
    split
    · show setIdx (setIdx (lr_run cap a b st epsilon k).na.cores k _) (k + 1) _
        k = _
      unfold setIdx
      rw [if_neg (by omega : ¬ k = k + 1), if_pos rfl]
      rfl
    · show setIdx (lr_run cap a b st epsilon k).na.cores k _ k = _
      unfold setIdx
      rw [if_pos rfl]
      rfl
  · intro hlast
    show (lr_step cap a b st.psi epsilon (lr_run cap a b st epsilon k) k).na.cores
      (k + 1) = _
    unfold lr_step
    dsimp only
    rw [if_pos hlast]
    show setIdx (setIdx (lr_run cap a b st epsilon k).na.cores k _) (k + 1) _
      (k + 1) = _
    unfold setIdx
    rw [if_pos rfl]
    rfl
  · intro hnot
    show (lr_step cap a b st.psi epsilon (lr_run cap a b st epsilon k) k).na.cores
      (k + 1) = _
    unfold lr_step
    dsimp only
    rw [if_neg (by omega : ¬ k + 1 = a.dim - 1)]
    show setIdx (lr_run cap a b st epsilon k).na.cores k _ (k + 1) = _
    unfold setIdx
    rw [if_neg (by omega : ¬ k + 1 = k)]

/-- Witness for C2 at a concrete capability, trains and step 0 of a
dimension-3 sweep. -/
theorem claim_C2_witness :
    ((lr_run capW wTrain3 wTrain3
        { phi := fun _ => none, psi := fun _ => none } 1 1).na.ranks 1 =
      (lr_svd capW wTrain3 wTrain3
        { phi := fun _ => none, psi := fun _ => none } 1 0).1) ∧
    ((lr_run capW wTrain3 wTrain3
        { phi := fun _ => none, psi := fun _ => none } 1 1).na.cores 0 =
      qmam (capW.qr (lr_super_left capW wTrain3 wTrain3
          { phi := fun _ => none, psi := fun _ => none } 1 0)).1
        (lr_svd capW wTrain3 wTrain3
          { phi := fun _ => none, psi := fun _ => none } 1 0).2.1
        (lr_svd capW wTrain3 wTrain3
          { phi := fun _ => none, psi := fun _ => none } 1 0).1) :=
  ⟨(claim_C2 capW wTrain3 wTrain3
      { phi := fun _ => none, psi := fun _ => none } 1 0 (by decide) rfl
      (by decide)).2.1,
   (claim_C2 capW wTrain3 wTrain3
      { phi := fun _ => none, psi := fun _ => none } 1 0 (by decide) rfl
      (by decide)).2.2.1⟩

/-- A capability whose truncated SVD always truncates to rank 1, as a real
truncated SVD does at relative tolerance 1 (the discarded mass is always
within tolerance and ranks never drop below 1). -/
def capCE : LinAlgCap :=
  { qr := fun A => (A, fun _ => 0)
    lq := fun A => (fun _ => 0, A)
    tsvd := fun _ _ _ => (1, fun _ => 0, fun _ => 0, fun _ => 0) }

/-- A dimension-3 train with rank sequence (1, 2, 2, 1). -/
def ceTrain : FunctionTrain :=
  { dim := 3
    ranks := fun k => if k = 0 ∨ k = 3 then 1 else 2
    cores := fun k =>
      if k = 0 then { nrows := 1, ncols := 2, funcs := fun _ => [1] }
      else if k = 1 then { nrows := 2, ncols := 2, funcs := fun _ => [1] }
      else { nrows := 2, ncols := 1, funcs := fun _ => [1] } }

/-- Counterexample to C4 as stated: when the truncated SVD lowers a rank
(here from 2 to 1), the train returned by `dmrg_sweep_lr` violates the
chain invariants — the sweep sizes interior cores from the *input*
guess's ranks (`lsize = a->cores[ii]->ncols`, dmrg.c line 249), so core 1
is a 2 x 1 block while `ranks[1] = 1`. -/
theorem claim_C4_cex :
    ¬ ft_invariant (dmrg_sweep_lr capCE ceTrain ceTrain
      { phi := fun _ => none, psi := fun _ => none } 1).1 := by
  decide

lemma lr_step_lsize (cap : LinAlgCap) (a b : FunctionTrain)
    (psi : ℕ → Option Buf) (epsilon : ℚ) (acc : LrAcc) (ii : ℕ) :
    (lr_step cap a b psi epsilon acc ii).lsize = (a.cores ii).ncols := rfl

lemma lr_step_ranks_frame (cap : LinAlgCap) (a b : FunctionTrain)
    (psi : ℕ → Option Buf) (epsilon : ℚ) (acc : LrAcc) (ii k : ℕ)
    (hk : k ≠ ii + 1) :
    (lr_step cap a b psi epsilon acc ii).na.ranks k = acc.na.ranks k := by
  by_cases hlast : ii + 1 = a.dim - 1 <;>
    unfold lr_step <;> dsimp only
  · rw [if_pos hlast]
    show setIdx acc.na.ranks (ii + 1) _ k = acc.na.ranks k
    unfold setIdx
    rw [if_neg hk]
  · rw [if_neg hlast]
    show setIdx acc.na.ranks (ii + 1) _ k = acc.na.ranks k
    unfold setIdx
    rw [if_neg hk]

lemma lr_step_ranks_at (cap : LinAlgCap) (a b : FunctionTrain)
    (psi : ℕ → Option Buf) (epsilon : ℚ) (acc : LrAcc) (ii : ℕ)
    (hfull : cap_full_rank cap) :
    (lr_step cap a b psi epsilon acc ii).na.ranks (ii + 1) =
      (b.cores ii).ncols := by
  by_cases hlast : ii + 1 = a.dim - 1 <;>
    unfold lr_step <;> dsimp only
  · rw [if_pos hlast]
    show setIdx acc.na.ranks (ii + 1) _ (ii + 1) = _
    unfold setIdx
    rw [if_pos rfl]
    exact hfull _ _ _
  · rw [if_neg hlast]
    show setIdx acc.na.ranks (ii + 1) _ (ii + 1) = _
    unfold setIdx
    rw [if_pos rfl]
    exact hfull _ _ _

lemma lr_step_cores_frame (cap : LinAlgCap) (a b : FunctionTrain)
    (psi : ℕ → Option Buf) (epsilon : ℚ) (acc : LrAcc) (ii k : ℕ)
    (h1 : k ≠ ii) (h2 : k ≠ ii + 1) :
    (lr_step cap a b psi epsilon acc ii).na.cores k = acc.na.cores k := by
  by_cases hlast : ii + 1 = a.dim - 1 <;>
    unfold lr_step <;> dsimp only
  · rw [if_pos hlast]
    show setIdx (setIdx acc.na.cores ii _) (ii + 1) _ k = acc.na.cores k
    unfold setIdx
    rw [if_neg h2, if_neg h1]
  · rw [if_neg hlast]
    show setIdx acc.na.cores ii _ k = acc.na.cores k
    unfold setIdx
    rw [if_neg h1]

lemma lr_step_core_at (cap : LinAlgCap) (a b : FunctionTrain)
    (psi : ℕ → Option Buf) (epsilon : ℚ) (acc : LrAcc) (ii : ℕ)
    (hcap : cap_shape_ok cap) (hfull : cap_full_rank cap) :
    ((lr_step cap a b psi epsilon acc ii).na.cores ii).nrows = acc.lsize ∧
    ((lr_step cap a b psi epsilon acc ii).na.cores ii).ncols =
      (b.cores ii).ncols := by
  have key : (lr_step cap a b psi epsilon acc ii).na.cores ii =
      qmam (cap.qr (mqma (bufGet (acc.phi ii)) (b.cores ii) acc.lsize)).1
        (cap.tsvd (b.cores ii).ncols
          (dgemm_nn (b.cores ii).ncols
            (cap.qr (mqma (bufGet (acc.phi ii)) (b.cores ii) acc.lsize)).2
            (cap.lq (qmam (b.cores (ii + 1)) (bufGet (psi ii))
              (if ii = a.dim - 2 then 1 else (a.cores (ii + 1)).ncols))).1)
          epsilon).2.1
        (cap.tsvd (b.cores ii).ncols
          (dgemm_nn (b.cores ii).ncols
            (cap.qr (mqma (bufGet (acc.phi ii)) (b.cores ii) acc.lsize)).2
            (cap.lq (qmam (b.cores (ii + 1)) (bufGet (psi ii))
              (if ii = a.dim - 2 then 1 else (a.cores (ii + 1)).ncols))).1)
          epsilon).1 := by
    by_cases hlast : ii + 1 = a.dim - 1 <;>
      unfold lr_step <;> dsimp only
    · rw [if_pos hlast]
      show setIdx (setIdx acc.na.cores ii _) (ii + 1) _ ii = _
      unfold setIdx
      rw [if_neg (by omega : ¬ ii = ii + 1), if_pos rfl]
    · rw [if_neg hlast]
      show setIdx acc.na.cores ii _ ii = _
      unfold setIdx
      rw [if_pos rfl]
  rw [key]
  constructor
  · rw [qmam_nrows, (hcap.1 _).1, mqma_nrows]
  · rw [qmam_ncols]
    exact hfull _ _ _

lemma lr_step_last_core (cap : LinAlgCap) (a b : FunctionTrain)
    (psi : ℕ → Option Buf) (epsilon : ℚ) (acc : LrAcc) (ii : ℕ)
    (hcap : cap_shape_ok cap) (hfull : cap_full_rank cap)
    (h2 : 2 ≤ a.dim) (hlast : ii + 1 = a.dim - 1) :
    ((lr_step cap a b psi epsilon acc ii).na.cores (ii + 1)).nrows =
      (b.cores ii).ncols ∧
    ((lr_step cap a b psi epsilon acc ii).na.cores (ii + 1)).ncols = 1 := by
  have hii : ii = a.dim - 2 := by omega
  have key : (lr_step cap a b psi epsilon acc ii).na.cores (ii + 1) =
      mqma
        (fun p =>
          (cap.tsvd (b.cores ii).ncols
            (dgemm_nn (b.cores ii).ncols
              (cap.qr (mqma (bufGet (acc.phi ii)) (b.cores ii) acc.lsize)).2
              (cap.lq (qmam (b.cores (ii + 1)) (bufGet (psi ii))
                (if ii = a.dim - 2 then 1 else (a.cores (ii + 1)).ncols))).1)
            epsilon).2.2.2 p *
          (cap.tsvd (b.cores ii).ncols
            (dgemm_nn (b.cores ii).ncols
              (cap.qr (mqma (bufGet (acc.phi ii)) (b.cores ii) acc.lsize)).2
              (cap.lq (qmam (b.cores (ii + 1)) (bufGet (psi ii))
                (if ii = a.dim - 2 then 1 else (a.cores (ii + 1)).ncols))).1)
            epsilon).2.2.1
            (p % (cap.tsvd (b.cores ii).ncols
              (dgemm_nn (b.cores ii).ncols
                (cap.qr (mqma (bufGet (acc.phi ii)) (b.cores ii) acc.lsize)).2
                (cap.lq (qmam (b.cores (ii + 1)) (bufGet (psi ii))
                  (if ii = a.dim - 2 then 1 else (a.cores (ii + 1)).ncols))).1)
              epsilon).1))
        (cap.lq (qmam (b.cores (ii + 1)) (bufGet (psi ii))
          (if ii = a.dim - 2 then 1 else (a.cores (ii + 1)).ncols))).2
        (cap.tsvd (b.cores ii).ncols
          (dgemm_nn (b.cores ii).ncols
            (cap.qr (mqma (bufGet (acc.phi ii)) (b.cores ii) acc.lsize)).2
            (cap.lq (qmam (b.cores (ii + 1)) (bufGet (psi ii))
              (if ii = a.dim - 2 then 1 else (a.cores (ii + 1)).ncols))).1)
          epsilon).1 := by
    unfold lr_step
    dsimp only
    rw [if_pos hlast]
    show setIdx (setIdx acc.na.cores ii _) (ii + 1) _ (ii + 1) = _
    unfold setIdx
    rw [if_pos rfl]
  rw [key]
  constructor
  · rw [mqma_nrows]
    exact hfull _ _ _
  · rw [mqma_ncols, (hcap.2 _).2, qmam_ncols, if_pos hii]

lemma lr_init_ranks (a : FunctionTrain) (phi0 : ℕ → Option Buf) (k : ℕ) :
    (lr_init a phi0).na.ranks k =
      if k = a.dim then 1 else if k = 0 then 1 else 0 := rfl

lemma lr_loop_shapes (cap : LinAlgCap) (a b : FunctionTrain)
    (psi : ℕ → Option Buf) (epsilon : ℚ) (phi0 : ℕ → Option Buf)
    (hcap : cap_shape_ok cap) (hfull : cap_full_rank cap)
    (ha : ft_invariant a) (hb : ft_invariant b) (hd : a.dim = b.dim) :
    ∀ j, j ≤ a.dim - 1 →
      ((lr_loop cap a b psi epsilon j (lr_init a phi0)).lsize =
        if j = 0 then 1 else (a.cores (j - 1)).ncols) ∧
      (∀ k, j < k →
        (lr_loop cap a b psi epsilon j (lr_init a phi0)).na.ranks k =
          (lr_init a phi0).na.ranks k) ∧
      ((lr_loop cap a b psi epsilon j (lr_init a phi0)).na.ranks 0 =
        (lr_init a phi0).na.ranks 0) ∧
      (∀ k, 1 ≤ k → k ≤ j →
        (lr_loop cap a b psi epsilon j (lr_init a phi0)).na.ranks k =
          b.ranks k) ∧
      (∀ k, k < j →
        ((lr_loop cap a b psi epsilon j (lr_init a phi0)).na.cores k).nrows =
          a.ranks k ∧
        ((lr_loop cap a b psi epsilon j (lr_init a phi0)).na.cores k).ncols =
          b.ranks (k + 1)) ∧
      (j = a.dim - 1 → 2 ≤ a.dim →
        ((lr_loop cap a b psi epsilon j
            (lr_init a phi0)).na.cores (a.dim - 1)).nrows =
          b.ranks (a.dim - 1) ∧
        ((lr_loop cap a b psi epsilon j
            (lr_init a phi0)).na.cores (a.dim - 1)).ncols = 1) := by
  intro j
  induction j with
  | zero =>
      intro _
      refine ⟨rfl, fun k _ => rfl, rfl, fun k h1 h2 => by omega,
        fun k h => by omega, fun h0 h2 => by omega⟩
  | succ j ih =>
      intro hj
      obtain ⟨ihl, ihfr, ih0, ihr, ihc, _⟩ := ih (by omega)
      rw [lr_loop_succ]
      set acc := lr_loop cap a b psi epsilon j (lr_init a phi0) with hacc
      have hjb : j < b.dim := by omega
      have hrat : (lr_step cap a b psi epsilon acc j).na.ranks (j + 1) =
          b.ranks (j + 1) := by
        rw [lr_step_ranks_at cap a b psi epsilon acc j hfull]
        exact (hb.2.2 j hjb).2
      refine ⟨?_, ?_, ?_, ?_, ?_, ?_⟩
      · rw [lr_step_lsize]
        rw [if_neg (by omega : ¬ j + 1 = 0)]
        simp only [Nat.add_sub_cancel]
      · intro k hk
        rw [lr_step_ranks_frame cap a b psi epsilon acc j k (by omega)]
        exact ihfr k (by omega)
      · rw [lr_step_ranks_frame cap a b psi epsilon acc j 0 (by omega)]
        exact ih0
      · intro k h1 h2
        rcases Nat.lt_or_ge k (j + 1) with hlt | hge
        · rw [lr_step_ranks_frame cap a b psi epsilon acc j k (by omega)]
          exact ihr k h1 (by omega)
        · have hk : k = j + 1 := by omega
          rw [hk]
          exact hrat
      · intro k hk
        rcases Nat.lt_or_ge k j with hlt | hge
        · rw [lr_step_cores_frame cap a b psi epsilon acc j k (by omega)
            (by omega)]
          exact ihc k hlt
        · have hk2 : k = j := by omega
          subst hk2
          obtain ⟨hn, hc⟩ := lr_step_core_at cap a b psi epsilon acc k hcap hfull
          refine ⟨?_, ?_⟩
          · rw [hn, ihl]
            rcases Nat.eq_zero_or_pos k with rfl | hkpos
            · rw [if_pos rfl]
              exact ha.1.symm
            · rw [if_neg (by omega : ¬ k = 0)]
              have := (ha.2.2 (k - 1) (by omega)).2
              rw [this]
              congr 1
              omega
          · rw [hc]
            exact (hb.2.2 k (by omega)).2
      · intro hlast h2
        have hidx : a.dim - 1 = j + 1 := by omega
        rw [← hidx] at hrat
        obtain ⟨hn, hc⟩ := lr_step_last_core cap a b psi epsilon acc j hcap hfull
          h2 (by omega)
        rw [hidx]
        refine ⟨?_, hc⟩
        rw [hn]
        have hjb2 : j < b.dim := by omega
        rw [(hb.2.2 j hjb2).2]

lemma dmrg_sweep_lr_shapes (cap : LinAlgCap) (a b : FunctionTrain)
    (st : DmrgMats) (epsilon : ℚ)
    (hcap : cap_shape_ok cap) (hfull : cap_full_rank cap)
    (ha : ft_invariant a) (hb : ft_invariant b) (hd : a.dim = b.dim)
    (h2 : 2 ≤ a.dim) (hr : ∀ k, k ≤ a.dim → a.ranks k = b.ranks k) :
    ft_invariant (dmrg_sweep_lr cap a b st epsilon).1 ∧
    (dmrg_sweep_lr cap a b st epsilon).1.dim = a.dim ∧
    (∀ k, k ≤ a.dim →
      (dmrg_sweep_lr cap a b st epsilon).1.ranks k = b.ranks k) := by
  obtain ⟨hl, hfr, h0, hrk, hco, hlast⟩ :=
    lr_loop_shapes cap a b st.psi epsilon st.phi hcap hfull ha hb hd
      (a.dim - 1) (le_refl _)
  have hdim : (dmrg_sweep_lr cap a b st epsilon).1.dim = a.dim :=
    dmrg_sweep_lr_dim cap a b st epsilon
  have hres : (dmrg_sweep_lr cap a b st epsilon).1 =
      (lr_run cap a b st epsilon (a.dim - 1)).na := rfl
  have hranks : ∀ k, k ≤ a.dim →
      (dmrg_sweep_lr cap a b st epsilon).1.ranks k = b.ranks k := by
    intro k hk
    rw [hres]
    rcases Nat.eq_zero_or_pos k with rfl | hkpos
    · show (lr_loop cap a b st.psi epsilon (a.dim - 1)
        (lr_init a st.phi)).na.ranks 0 = b.ranks 0
      rw [h0, lr_init_ranks, if_neg (by omega : ¬ (0 : ℕ) = a.dim),
        if_pos rfl, hb.1]
    · rcases Nat.lt_or_ge k a.dim with hlt | hge
      · exact hrk k hkpos (by omega)
      · have hk2 : k = a.dim := by omega
        subst hk2
        show (lr_loop cap a b st.psi epsilon (a.dim - 1)
          (lr_init a st.phi)).na.ranks a.dim = b.ranks a.dim
        rw [hfr a.dim (by omega), lr_init_ranks, if_pos rfl, hd]
        exact hb.2.1.symm
  refine ⟨⟨?_, ?_, ?_⟩, hdim, hranks⟩
  · rw [hranks 0 (by omega), hb.1]
  · rw [hdim, hranks a.dim (le_refl _), hd, hb.2.1]
  · intro k hk
    rw [hdim] at hk
    rcases Nat.lt_or_ge k (a.dim - 1) with hlt | hge
    · obtain ⟨hn, hc⟩ := hco k hlt
      have hn2 : ((dmrg_sweep_lr cap a b st epsilon).1.cores k).nrows =
          a.ranks k := by rw [hres]; exact hn
      have hc2 : ((dmrg_sweep_lr cap a b st epsilon).1.cores k).ncols =
          b.ranks (k + 1) := by rw [hres]; exact hc
      constructor
      · rw [hn2, hr k (by omega)]
        exact (hranks k (by omega)).symm
      · rw [hc2]
        exact (hranks (k + 1) (by omega)).symm
    · have hk2 : k = a.dim - 1 := by omega
      subst hk2
      obtain ⟨hn, hc⟩ := hlast rfl h2
      have hn2 : ((dmrg_sweep_lr cap a b st epsilon).1.cores (a.dim - 1)).nrows =
          b.ranks (a.dim - 1) := by rw [hres]; exact hn
      have hc2 : ((dmrg_sweep_lr cap a b st epsilon).1.cores (a.dim - 1)).ncols =
          1 := by rw [hres]; exact hc
      constructor
      · rw [hn2]
        exact (hranks (a.dim - 1) (by omega)).symm
      · rw [hc2]
        have hidx : a.dim - 1 + 1 = a.dim := by omega
        rw [hidx, hranks a.dim (le_refl _), hd, hb.2.1]

lemma rl_step_rsize (cap : LinAlgCap) (a b : FunctionTrain)
    (phi : ℕ → Option Buf) (epsilon : ℚ) (acc : RlAcc) (ii : ℕ) :
    (rl_step cap a b phi epsilon acc ii).rsize = (a.cores (ii + 1)).nrows := rfl

lemma rl_step_ranks_frame (cap : LinAlgCap) (a b : FunctionTrain)
    (phi : ℕ → Option Buf) (epsilon : ℚ) (acc : RlAcc) (ii k : ℕ)
    (hk : k ≠ ii + 1) :
    (rl_step cap a b phi epsilon acc ii).na.ranks k = acc.na.ranks k := by
  by_cases h0 : ii = 0 <;>
    unfold rl_step <;> dsimp only
  · rw [if_pos h0]
    show setIdx acc.na.ranks (ii + 1) _ k = acc.na.ranks k
    unfold setIdx
    rw [if_neg hk]
  · rw [if_neg h0]
    show setIdx acc.na.ranks (ii + 1) _ k = acc.na.ranks k
    unfold setIdx
    rw [if_neg hk]

lemma rl_step_ranks_at (cap : LinAlgCap) (a b : FunctionTrain)
    (phi : ℕ → Option Buf) (epsilon : ℚ) (acc : RlAcc) (ii : ℕ)
    (hfull : cap_full_rank cap) :
    (rl_step cap a b phi epsilon acc ii).na.ranks (ii + 1) =
      (b.cores ii).ncols := by
  by_cases h0 : ii = 0 <;>
    unfold rl_step <;> dsimp only
  · rw [if_pos h0]
    show setIdx acc.na.ranks (ii + 1) _ (ii + 1) = _
    unfold setIdx
    rw [if_pos rfl]
    exact hfull _ _ _
  · rw [if_neg h0]
    show setIdx acc.na.ranks (ii + 1) _ (ii + 1) = _
    unfold setIdx
    rw [if_pos rfl]
    exact hfull _ _ _

lemma rl_step_cores_frame (cap : LinAlgCap) (a b : FunctionTrain)
    (phi : ℕ → Option Buf) (epsilon : ℚ) (acc : RlAcc) (ii k : ℕ)
    (h1 : k ≠ ii + 1) (h2 : ii = 0 → k ≠ 0) :
    (rl_step cap a b phi epsilon acc ii).na.cores k = acc.na.cores k := by
  by_cases h0 : ii = 0 <;>
    unfold rl_step <;> dsimp only
  · rw [if_pos h0]
    show setIdx (setIdx acc.na.cores (ii + 1) _) 0 _ k = acc.na.cores k
    unfold setIdx
    rw [if_neg (h2 h0), if_neg h1]
  · rw [if_neg h0]
    show setIdx acc.na.cores (ii + 1) _ k = acc.na.cores k
    unfold setIdx
    rw [if_neg h1]

lemma rl_step_core_at (cap : LinAlgCap) (a b : FunctionTrain)
    (phi : ℕ → Option Buf) (epsilon : ℚ) (acc : RlAcc) (ii : ℕ)
    (hcap : cap_shape_ok cap) (hfull : cap_full_rank cap) :
    ((rl_step cap a b phi epsilon acc ii).na.cores (ii + 1)).nrows =
      (b.cores ii).ncols ∧
    ((rl_step cap a b phi epsilon acc ii).na.cores (ii + 1)).ncols =
      acc.rsize := by
  have key : (rl_step cap a b phi epsilon acc ii).na.cores (ii + 1) =
      mqma
        (cap.tsvd (b.cores ii).ncols
          (dgemm_nn (b.cores ii).ncols
            (cap.qr (mqma (bufGet (phi ii)) (b.cores ii)
              (if ii = 0 then 1 else (a.cores (ii - 1)).ncols))).2
            (cap.lq (qmam (b.cores (ii + 1)) (bufGet (acc.psi ii))
              acc.rsize)).1)
          epsilon).2.2.2
        (cap.lq (qmam (b.cores (ii + 1)) (bufGet (acc.psi ii)) acc.rsize)).2
        (cap.tsvd (b.cores ii).ncols
          (dgemm_nn (b.cores ii).ncols
            (cap.qr (mqma (bufGet (phi ii)) (b.cores ii)
              (if ii = 0 then 1 else (a.cores (ii - 1)).ncols))).2
            (cap.lq (qmam (b.cores (ii + 1)) (bufGet (acc.psi ii))
              acc.rsize)).1)
          epsilon).1 := by
    by_cases h0 : ii = 0 <;>
      unfold rl_step <;> dsimp only
    · rw [if_pos h0]
      unfold setIdx
      dsimp only
      rw [if_neg (by omega : ¬ ii + 1 = 0), if_pos rfl]
    · rw [if_neg h0]
      unfold setIdx
      dsimp only
      rw [if_pos rfl]
  rw [key]
  constructor
  · rw [mqma_nrows]
    exact hfull _ _ _
  · rw [mqma_ncols, (hcap.2 _).2, qmam_ncols]

lemma rl_step_core_zero (cap : LinAlgCap) (a b : FunctionTrain)
    (phi : ℕ → Option Buf) (epsilon : ℚ) (acc : RlAcc)
    (hcap : cap_shape_ok cap) (hfull : cap_full_rank cap) :
    ((rl_step cap a b phi epsilon acc 0).na.cores 0).nrows = 1 ∧
    ((rl_step cap a b phi epsilon acc 0).na.cores 0).ncols =
      (b.cores 0).ncols := by
  have key : (rl_step cap a b phi epsilon acc 0).na.cores 0 =
      qmam (cap.qr (mqma (bufGet (phi 0)) (b.cores 0)
          (if (0 : ℕ) = 0 then 1 else (a.cores (0 - 1)).ncols))).1
        (fun p =>
          (cap.tsvd (b.cores 0).ncols
            (dgemm_nn (b.cores 0).ncols
              (cap.qr (mqma (bufGet (phi 0)) (b.cores 0)
                (if (0 : ℕ) = 0 then 1 else (a.cores (0 - 1)).ncols))).2
              (cap.lq (qmam (b.cores 1) (bufGet (acc.psi 0)) acc.rsize)).1)
            epsilon).2.1 p *
          (cap.tsvd (b.cores 0).ncols
            (dgemm_nn (b.cores 0).ncols
              (cap.qr (mqma (bufGet (phi 0)) (b.cores 0)
                (if (0 : ℕ) = 0 then 1 else (a.cores (0 - 1)).ncols))).2
              (cap.lq (qmam (b.cores 1) (bufGet (acc.psi 0)) acc.rsize)).1)
            epsilon).2.2.1
            (p / (b.cores 0).ncols))
        (cap.tsvd (b.cores 0).ncols
          (dgemm_nn (b.cores 0).ncols
            (cap.qr (mqma (bufGet (phi 0)) (b.cores 0)
              (if (0 : ℕ) = 0 then 1 else (a.cores (0 - 1)).ncols))).2
            (cap.lq (qmam (b.cores 1) (bufGet (acc.psi 0)) acc.rsize)).1)
          epsilon).1 := rfl
  rw [key]
  constructor
  · rw [qmam_nrows, (hcap.1 _).1, mqma_nrows]
    rfl
  · rw [qmam_ncols]
    exact hfull _ _ _

lemma rl_init_ranks (a : FunctionTrain) (psi0 : ℕ → Option Buf) (k : ℕ) :
    (rl_init a psi0).na.ranks k =
      if k = a.dim then 1 else if k = 0 then 1 else 0 := rfl

lemma rl_loop_shapes (cap : LinAlgCap) (a b : FunctionTrain)
    (phi : ℕ → Option Buf) (epsilon : ℚ)
    (hcap : cap_shape_ok cap) (hfull : cap_full_rank cap)
    (ha : ft_invariant a) (hb : ft_invariant b) (hd : a.dim = b.dim) :
    ∀ m, m ≤ a.dim - 1 → ∀ acc : RlAcc,
      acc.rsize = (if m = a.dim - 1 then 1 else a.ranks (m + 1)) →
      (∀ k, m < k →
        (rl_loop cap a b phi epsilon m acc).na.ranks k = acc.na.ranks k ∧
        (rl_loop cap a b phi epsilon m acc).na.cores k = acc.na.cores k) ∧
      ((rl_loop cap a b phi epsilon m acc).na.ranks 0 = acc.na.ranks 0) ∧
      (∀ k, 1 ≤ k → k ≤ m →
        (rl_loop cap a b phi epsilon m acc).na.ranks k = b.ranks k) ∧
      (∀ k, 1 ≤ k → k ≤ m →
        ((rl_loop cap a b phi epsilon m acc).na.cores k).nrows = b.ranks k ∧
        ((rl_loop cap a b phi epsilon m acc).na.cores k).ncols =
          (if k = a.dim - 1 then 1 else a.ranks (k + 1))) ∧
      (1 ≤ m →
        ((rl_loop cap a b phi epsilon m acc).na.cores 0).nrows = 1 ∧
        ((rl_loop cap a b phi epsilon m acc).na.cores 0).ncols = b.ranks 1) := by
  intro m
  induction m with
  | zero =>
      intro _ acc _
      exact ⟨fun k _ => ⟨rfl, rfl⟩, rfl, fun k h1 h2 => by omega,
        fun k h1 h2 => by omega, fun h => by omega⟩
  | succ m ih =>
      intro hm acc hrs
      have hmb : m < b.dim := by omega
      have hma : m + 1 < a.dim := by omega
      rw [rl_loop_succ]
      set acc2 := rl_step cap a b phi epsilon acc m with hacc2
      have hrs2 : acc2.rsize =
          (if m = a.dim - 1 then 1 else a.ranks (m + 1)) := by
        rw [hacc2, rl_step_rsize, if_neg (by omega : ¬ m = a.dim - 1)]
        exact (ha.2.2 (m + 1) hma).1
      obtain ⟨ihfr, ih0, ihr, ihc, ihz⟩ := ih (by omega) acc2 hrs2
      have hstepr : acc2.na.ranks (m + 1) = b.ranks (m + 1) := by
        rw [hacc2, rl_step_ranks_at cap a b phi epsilon acc m hfull]
        exact (hb.2.2 m hmb).2
      have hstepc : (acc2.na.cores (m + 1)).nrows = b.ranks (m + 1) ∧
          (acc2.na.cores (m + 1)).ncols =
            (if m + 1 = a.dim - 1 then 1 else a.ranks (m + 1 + 1)) := by
        obtain ⟨hn, hc⟩ := rl_step_core_at cap a b phi epsilon acc m hcap hfull
        constructor
        · rw [hacc2, hn]
          exact (hb.2.2 m hmb).2
        · rw [hacc2, hc, hrs]
      refine ⟨?_, ?_, ?_, ?_, ?_⟩
      · intro k hk
        obtain ⟨h1, h2⟩ := ihfr k (by omega)
        constructor
        · rw [h1, hacc2,
            rl_step_ranks_frame cap a b phi epsilon acc m k (by omega)]
        · rw [h2, hacc2,
            rl_step_cores_frame cap a b phi epsilon acc m k (by omega)
              (by omega)]
      · rw [ih0, hacc2,
          rl_step_ranks_frame cap a b phi epsilon acc m 0 (by omega)]
      · intro k h1 h2
        rcases Nat.lt_or_ge k (m + 1) with hlt | hge
        · exact ihr k h1 (by omega)
        · have hk : k = m + 1 := by omega
          subst hk
          rw [(ihfr (m + 1) (by omega)).1]
          exact hstepr
      · intro k h1 h2
        rcases Nat.lt_or_ge k (m + 1) with hlt | hge
        · exact ihc k h1 (by omega)
        · have hk : k = m + 1 := by omega
          subst hk
          rw [(ihfr (m + 1) (by omega)).2]
          exact hstepc
      · intro _
        rcases Nat.eq_zero_or_pos m with rfl | hmpos
        · obtain ⟨hn, hc⟩ := rl_step_core_zero cap a b phi epsilon acc hcap hfull
          have h2b : (b.cores 0).ncols = b.ranks 1 := (hb.2.2 0 (by omega)).2
          exact ⟨hn, hc.trans h2b⟩
        · exact ihz hmpos

lemma dmrg_sweep_rl_shapes (cap : LinAlgCap) (a b : FunctionTrain)
    (st : DmrgMats) (epsilon : ℚ)
    (hcap : cap_shape_ok cap) (hfull : cap_full_rank cap)
    (ha : ft_invariant a) (hb : ft_invariant b) (hd : a.dim = b.dim)
    (h2 : 2 ≤ a.dim) (hr : ∀ k, k ≤ a.dim → a.ranks k = b.ranks k) :
    ft_invariant (dmrg_sweep_rl cap a b st epsilon).1 ∧
    (dmrg_sweep_rl cap a b st epsilon).1.dim = a.dim ∧
    (∀ k, k ≤ a.dim →
      (dmrg_sweep_rl cap a b st epsilon).1.ranks k = b.ranks k) := by
  have hres : (dmrg_sweep_rl cap a b st epsilon).1 =
      (rl_loop cap a b st.phi epsilon (a.dim - 1) (rl_init a st.psi)).na := rfl
  obtain ⟨hfr, h0, hrk, hco, hz⟩ :=
    rl_loop_shapes cap a b st.phi epsilon hcap hfull ha hb hd (a.dim - 1)
      (le_refl _) (rl_init a st.psi) (by rw [if_pos rfl]; rfl)
  have hdim : (dmrg_sweep_rl cap a b st epsilon).1.dim = a.dim :=
    dmrg_sweep_rl_dim cap a b st epsilon
  have hranks : ∀ k, k ≤ a.dim →
      (dmrg_sweep_rl cap a b st epsilon).1.ranks k = b.ranks k := by
    intro k hk
    rcases Nat.eq_zero_or_pos k with rfl | hkpos
    · have : (dmrg_sweep_rl cap a b st epsilon).1.ranks 0 =
          (rl_init a st.psi).na.ranks 0 := by rw [hres]; exact h0
      rw [this, rl_init_ranks, if_neg (by omega : ¬ (0 : ℕ) = a.dim),
        if_pos rfl, hb.1]
    · rcases Nat.lt_or_ge k a.dim with hlt | hge
      · have : (dmrg_sweep_rl cap a b st epsilon).1.ranks k = b.ranks k := by
          rw [hres]; exact hrk k hkpos (by omega)
        exact this
      · have hk2 : k = a.dim := by omega
        subst hk2
        have : (dmrg_sweep_rl cap a b st epsilon).1.ranks a.dim =
            (rl_init a st.psi).na.ranks a.dim := by
          rw [hres]; exact (hfr a.dim (by omega)).1
        rw [this, rl_init_ranks, if_pos rfl, hd]
        exact hb.2.1.symm
  refine ⟨⟨?_, ?_, ?_⟩, hdim, hranks⟩
  · rw [hranks 0 (by omega), hb.1]
  · rw [hdim, hranks a.dim (le_refl _), hd, hb.2.1]
  · intro k hk
    rw [hdim] at hk
    rcases Nat.eq_zero_or_pos k with rfl | hkpos
    · obtain ⟨hn, hc⟩ := hz (by omega)
      have hn2 : ((dmrg_sweep_rl cap a b st epsilon).1.cores 0).nrows = 1 := by
        rw [hres]; exact hn
      have hc2 : ((dmrg_sweep_rl cap a b st epsilon).1.cores 0).ncols =
          b.ranks 1 := by rw [hres]; exact hc
      constructor
      · rw [hn2, hranks 0 (by omega), hb.1]
      · rw [hc2]
        exact (hranks 1 (by omega)).symm
    · obtain ⟨hn, hc⟩ := hco k hkpos (by omega)
      have hn2 : ((dmrg_sweep_rl cap a b st epsilon).1.cores k).nrows =
          b.ranks k := by rw [hres]; exact hn
      have hc2 : ((dmrg_sweep_rl cap a b st epsilon).1.cores k).ncols =
          (if k = a.dim - 1 then 1 else a.ranks (k + 1)) := by
        rw [hres]; exact hc
      constructor
      · rw [hn2]
        exact (hranks k (by omega)).symm
      · rw [hc2]
        by_cases hlast : k = a.dim - 1
        · rw [if_pos hlast, hranks (k + 1) (by omega)]
          have hk1 : k + 1 = a.dim := by omega
          rw [hk1, hd, hb.2.1]
        · rw [if_neg hlast, hr (k + 1) (by omega)]
          exact (hranks (k + 1) (by omega)).symm

lemma orthor_step_shapes (cap : LinAlgCap) (hcap : cap_shape_ok cap)
    (cs : ℕ → Qmarray) (R : ℕ → ℕ) (d : ℕ)
    (hsh : ∀ k, k < d → (cs k).nrows = R k ∧ (cs k).ncols = R (k + 1))
    (j : ℕ) (hj1 : 1 ≤ j) (hjd : j < d) :
    ∀ k, k < d → ((orthor_step cap cs j) k).nrows = R k ∧
      ((orthor_step cap cs j) k).ncols = R (k + 1) := by
  intro k hk
  unfold orthor_step
  unfold setIdx
  by_cases h1 : k = j - 1
  · rw [if_pos h1]
    constructor
    · rw [qmam_nrows, h1]
      exact (hsh (j - 1) (by omega)).1
    · rw [qmam_ncols, (hsh j hjd).1, h1]
      congr 1
      omega
  · rw [if_neg h1]
    by_cases h2 : k = j
    · rw [if_pos h2, (hcap.2 _).1, (hcap.2 _).2, h2]
      exact hsh j hjd
    · rw [if_neg h2]
      exact hsh k hk

lemma orthor_loop_shapes (cap : LinAlgCap) (hcap : cap_shape_ok cap)
    (R : ℕ → ℕ) (d : ℕ) :
    ∀ j, j ≤ d - 1 → ∀ cs : ℕ → Qmarray,
      (∀ k, k < d → (cs k).nrows = R k ∧ (cs k).ncols = R (k + 1)) →
      ∀ k, k < d → ((orthor_loop cap j cs) k).nrows = R k ∧
        ((orthor_loop cap j cs) k).ncols = R (k + 1) := by
  intro j
  induction j with
  | zero => intro _ cs hsh k hk; exact hsh k hk
  | succ j ih =>
      intro hj cs hsh k hk
      show ((orthor_loop cap j (orthor_step cap cs (j + 1))) k).nrows = R k ∧ _
      exact ih (by omega)
        (orthor_step cap cs (j + 1))
        (orthor_step_shapes cap hcap cs R d hsh (j + 1) (by omega) (by omega))
        k hk

lemma function_train_orthor_shapes (cap : LinAlgCap) (a : FunctionTrain)
    (hcap : cap_shape_ok cap) (ha : ft_invariant a) :
    ft_invariant (function_train_orthor cap a) ∧
    (function_train_orthor cap a).dim = a.dim ∧
    (∀ k, (function_train_orthor cap a).ranks k = a.ranks k) := by
  refine ⟨⟨ha.1, ha.2.1, ?_⟩, rfl, fun k => rfl⟩
  intro k hk
  exact orthor_loop_shapes cap hcap a.ranks a.dim (a.dim - 1) (le_refl _)
    a.cores ha.2.2 k hk

lemma dmrg_sweep_lrl_shapes (cap : LinAlgCap) (a b : FunctionTrain)
    (st : DmrgMats) (epsilon : ℚ)
    (hcap : cap_shape_ok cap) (hfull : cap_full_rank cap)
    (ha : ft_invariant a) (hb : ft_invariant b) (hd : a.dim = b.dim)
    (h2 : 2 ≤ a.dim) (hr : ∀ k, k ≤ a.dim → a.ranks k = b.ranks k) :
    ft_invariant (dmrg_sweep_lrl cap a b st epsilon).1 ∧
    (dmrg_sweep_lrl cap a b st epsilon).1.dim = a.dim ∧
    (∀ k, k ≤ a.dim →
      (dmrg_sweep_lrl cap a b st epsilon).1.ranks k = b.ranks k) := by
  obtain ⟨ht, htd, htr⟩ :=
    dmrg_sweep_lr_shapes cap a b st epsilon hcap hfull ha hb hd h2 hr
  set t := dmrg_sweep_lr cap a b st epsilon with hts
  have hres : dmrg_sweep_lrl cap a b st epsilon =
      dmrg_sweep_rl cap t.1 b t.2 epsilon := rfl
  obtain ⟨hi, hid, hir⟩ :=
    dmrg_sweep_rl_shapes cap t.1 b t.2 epsilon hcap hfull ht hb
      (by rw [htd]; exact hd) (by rw [htd]; exact h2)
      (by intro k hk; rw [htd] at hk; exact htr k hk)
  rw [htd] at hid hir
  exact ⟨by rw [hres]; exact hi, by rw [hres]; exact hid,
    by rw [hres]; exact hir⟩

/-- C4 amended: the trains returned by `dmrg_sweep_lr`, `dmrg_sweep_rl`,
`dmrg_sweep_lrl` and `dmrg_approx` satisfy the chain invariants
(`ranks[0] = ranks[dim] = 1`, core `k` of shape `ranks[k] x ranks[k+1]`)
provided the Householder capability is shape-conformant, every truncated
SVD returns full local rank (no truncation, as with tolerance 0 on
full-rank matrices), and the guess's rank sequence equals the target's.
Without the rank preservation the invariant fails (see the
counterexample): interior core row counts are taken from the input
guess's stale rank data (`lsize`/`rsize` in dmrg.c). -/
theorem claim_C4 (cap : LinAlgCap) (a b : FunctionTrain) (st : DmrgMats)
    (delta epsilon : ℚ) (n : ℕ)
    (hcap : cap_shape_ok cap) (hfull : cap_full_rank cap)
    (ha : ft_invariant a) (hb : ft_invariant b) (hd : a.dim = b.dim)
    (h3 : 3 ≤ a.dim) (hr : ∀ k, k ≤ a.dim → a.ranks k = b.ranks k) :
    ft_invariant (dmrg_sweep_lr cap a b st epsilon).1 ∧
    ft_invariant (dmrg_sweep_rl cap a b st epsilon).1 ∧
    ft_invariant (dmrg_sweep_lrl cap a b st epsilon).1 ∧
    (∀ t, dmrg_approx cap a b delta n epsilon = some t → ft_invariant t) := by
  have h2 : 2 ≤ a.dim := by omega
  refine ⟨(dmrg_sweep_lr_shapes cap a b st epsilon hcap hfull ha hb hd h2 hr).1,
    (dmrg_sweep_rl_shapes cap a b st epsilon hcap hfull ha hb hd h2 hr).1,
    (dmrg_sweep_lrl_shapes cap a b st epsilon hcap hfull ha hb hd h2 hr).1,
    ?_⟩
  have main : ∀ m,
      (ft_invariant (dmrg_run cap a b delta epsilon m).2.1 ∧
        (dmrg_run cap a b delta epsilon m).2.1.dim = a.dim ∧
        (∀ k, k ≤ a.dim →
          (dmrg_run cap a b delta epsilon m).2.1.ranks k = b.ranks k)) ∧
      (∀ t, (dmrg_run cap a b delta epsilon m).1 = some t →
        ft_invariant t) := by
    intro m
    induction m with
    | zero =>
        obtain ⟨ho, hod, hor⟩ :=
          function_train_orthor_shapes cap a hcap ha
        refine ⟨⟨ho, hod, ?_⟩, ?_⟩
        · intro k hk
          show (function_train_orthor cap a).ranks k = b.ranks k
          rw [hor k]
          exact hr k hk
        · intro t ht
          exact absurd ht (by simp [dmrg_run])
    | succ m ih =>
        obtain ⟨⟨ihi, ihd, ihr⟩, _⟩ := ih
        have hstep : dmrg_run cap a b delta epsilon (m + 1) =
            dmrg_step cap b delta epsilon (dmrg_run cap a b delta epsilon m) := by
          simp only [dmrg_run, Function.iterate_succ_apply']
        set s := dmrg_run cap a b delta epsilon m with hs
        obtain ⟨hlrl, hlrld, hlrlr⟩ :=
          dmrg_sweep_lrl_shapes cap s.2.1 b s.2.2 epsilon hcap hfull ihi hb
            (by rw [ihd]; exact hd) (by rw [ihd]; exact h2)
            (by intro k hk; rw [ihd] at hk; exact ihr k hk)
        rw [ihd] at hlrld hlrlr
        have hout1 : (dmrg_step cap b delta epsilon s).1 =
            some (dmrg_sweep_lrl cap s.2.1 b s.2.2 epsilon).1 := by
          rw [dmrg_step_eq]
        have hout2 : (dmrg_step cap b delta epsilon s).2.1 =
            (dmrg_sweep_lrl cap s.2.1 b s.2.2 epsilon).1 := by
          rw [dmrg_step_eq]
        refine ⟨⟨?_, ?_, ?_⟩, ?_⟩
        · rw [hstep, hout2]
          exact hlrl
        · rw [hstep, hout2]
          exact hlrld
        · intro k hk
          rw [hstep, hout2]
          exact hlrlr k hk
        · intro t ht
          rw [hstep, hout1] at ht
          injection ht with ht2
          rw [← ht2]
          exact hlrl
  intro t ht
  exact (main n).2 t ht

/-- Witness for the amended C4 at a full-rank capability and matching
concrete trains. -/
theorem claim_C4_witness :
    ft_invariant (dmrg_sweep_lr capW wTrain3 wTrain3
      { phi := fun _ => none, psi := fun _ => none } 1).1 ∧
    ft_invariant (dmrg_sweep_lrl capW wTrain3 wTrain3
      { phi := fun _ => none, psi := fun _ => none } 1).1 :=
  ⟨(claim_C4 capW wTrain3 wTrain3
      { phi := fun _ => none, psi := fun _ => none } 0 1 1
      ⟨fun A => ⟨rfl, rfl⟩, fun A => ⟨rfl, rfl⟩⟩ (fun n M e => rfl)
      (by decide) (by decide) rfl (by decide) (fun k _ => rfl)).1,
   (claim_C4 capW wTrain3 wTrain3
      { phi := fun _ => none, psi := fun _ => none } 0 1 1
      ⟨fun A => ⟨rfl, rfl⟩, fun A => ⟨rfl, rfl⟩⟩ (fun n M e => rfl)
      (by decide) (by decide) rfl (by decide) (fun k _ => rfl)).2.2.1⟩

/-- Modelled from the spec: the running row-vector of the chain
contraction of section 4.2 (`function_train_eval` /
`function_train_integrate` are not under src/): `ft_vec f ev k` is the
vector after contracting cores `0..k-1`, starting from `[1]`. -/
def ft_vec (f : FunctionTrain) (ev : ℕ → GF → ℚ) : ℕ → ℕ → ℚ
  | 0 => fun i => if i = 0 then 1 else 0
  | k + 1 => fun j =>
      ∑ i ∈ Finset.range (f.cores k).nrows,
        ft_vec f ev k i * ev k ((f.cores k).entry i j)

/-- Modelled from the spec: `function_train_eval` (section 4.2): walk the
chain left to right, replacing the running vector by `v * core[k](x_k)`,
and return the single remaining scalar. -/
def function_train_eval (f : FunctionTrain) (x : ℕ → ℚ) : ℚ :=
  ft_vec f (fun k g => gfEval g (x k)) f.dim 0

/-- Modelled from the spec: `function_train_integrate` (section 4.2): the
same contraction with per-entry integration. -/
def function_train_integrate (f : FunctionTrain) : ℚ :=
  ft_vec f (fun _ g => gfIntegrate g) f.dim 0

/-- Modelled from the spec: the Kronecker-structured core-wise product of
two Qmarrays (section 4.2, `function_train_product`): row index
`i = i1 * B.nrows + i2`, column index `j = j1 * B.ncols + j2`, entry the
function-wise product. -/
def qmarray_kron (A B : Qmarray) : Qmarray :=
  { nrows := A.nrows * B.nrows
    ncols := A.ncols * B.ncols
    funcs := fun p =>
      gfMul
        (A.entry ((p % (A.nrows * B.nrows)) / B.nrows)
          ((p / (A.nrows * B.nrows)) / B.ncols))
        (B.entry ((p % (A.nrows * B.nrows)) % B.nrows)
          ((p / (A.nrows * B.nrows)) % B.ncols)) }

/-- Modelled from the spec: `function_train_product` (not under src/):
core-wise Kronecker product, ranks multiply. -/
def function_train_product (a b : FunctionTrain) : FunctionTrain :=
  { dim := a.dim
    ranks := fun k => a.ranks k * b.ranks k
    cores := fun k => qmarray_kron (a.cores k) (b.cores k) }

/-- Modelled from the spec: the accumulated overlap matrix of
`function_train_inner` (section 4.2: the same Psi/Phi sweeping machinery
as section 4.4, without materializing the product train). -/
def inner_mat (a b : FunctionTrain) : ℕ → ℕ → ℕ → ℚ
  | 0 => fun p q => if p = 0 ∧ q = 0 then 1 else 0
  | k + 1 => fun p q =>
      ∑ i ∈ Finset.range (a.cores k).nrows,
        ∑ j ∈ Finset.range (b.cores k).nrows,
          inner_mat a b k i j *
            generic_function_inner ((a.cores k).entry i p)
              ((b.cores k).entry j q)

/-- Modelled from the spec: `function_train_inner` (not under src/):
sweep the accumulated overlap matrices across the chain and return the
final 1x1 scalar. -/
def function_train_inner (a b : FunctionTrain) : ℚ := inner_mat a b a.dim 0 0

lemma qmarray_kron_entry (A B : Qmarray) (i j : ℕ)
    (hi : i < A.nrows * B.nrows) :
    (qmarray_kron A B).entry i j =
      gfMul (A.entry (i / B.nrows) (j / B.ncols))
        (B.entry (i % B.nrows) (j % B.ncols)) := by
  unfold qmarray_kron Qmarray.entry
  dsimp only
  have hn : 0 < A.nrows * B.nrows := by omega
  have h1 : (j * (A.nrows * B.nrows) + i) % (A.nrows * B.nrows) = i := by
    rw [Nat.mul_comm j (A.nrows * B.nrows), Nat.mul_add_mod]
    exact Nat.mod_eq_of_lt hi
  have h2 : (j * (A.nrows * B.nrows) + i) / (A.nrows * B.nrows) = j := by
    rw [Nat.mul_comm j (A.nrows * B.nrows), Nat.mul_add_div hn,
      Nat.div_eq_of_lt hi, Nat.add_zero]
  rw [h1, h2]

lemma sum_range_mul_split {M : Type} [AddCommMonoid M] (m n : ℕ) (f : ℕ → M) :
    ∑ i ∈ Finset.range (m * n), f i =
      ∑ p ∈ Finset.range m, ∑ q ∈ Finset.range n, f (p * n + q) := by
  induction m with
  | zero => simp
  | succ m ih =>
      have hsplit : ∑ i ∈ Finset.range (m * n + n), f i =
          ∑ i ∈ Finset.range (m * n), f i +
            ∑ i ∈ Finset.range n, f (m * n + i) := by
        rw [Finset.range_eq_Ico,
          ← Finset.sum_Ico_consecutive f (Nat.zero_le (m * n))
            (Nat.le_add_right (m * n) n)]
        congr 1
        rw [Finset.sum_Ico_eq_sum_range]
        simp
      rw [Nat.succ_mul, hsplit, ih, Finset.sum_range_succ]

lemma inner_eq_prod_vec (a b : FunctionTrain) (hd : a.dim = b.dim)
    (ha : ft_invariant a) (hb : ft_invariant b) :
    ∀ k, k ≤ a.dim → ∀ p q, p < a.ranks k → q < b.ranks k →
      ft_vec (function_train_product a b) (fun _ g => gfIntegrate g) k
        (p * b.ranks k + q) = inner_mat a b k p q := by
  intro k
  induction k with
  | zero =>
      intro _ p q hp hq
      have hp0 : p = 0 := by rw [ha.1] at hp; omega
      have hq0 : q = 0 := by rw [hb.1] at hq; omega
      subst hp0
      subst hq0
      simp [ft_vec, inner_mat]
  | succ k ih =>
      intro hk p q hp hq
      have hka : k < a.dim := by omega
      have hkb : k < b.dim := by omega
      have hanr : (a.cores k).nrows = a.ranks k := (ha.2.2 k hka).1
      have hbnr : (b.cores k).nrows = b.ranks k := (hb.2.2 k hkb).1
      have hbnc : (b.cores k).ncols = b.ranks (k + 1) := (hb.2.2 k hkb).2
      simp only [ft_vec, inner_mat]
      have hnr : ((function_train_product a b).cores k).nrows =
          a.ranks k * b.ranks k := by
        show (a.cores k).nrows * (b.cores k).nrows = _
        rw [hanr, hbnr]
      rw [hnr, sum_range_mul_split]
      conv_rhs => rw [hanr, hbnr]
      apply Finset.sum_congr rfl
      intro i1 hi1
      apply Finset.sum_congr rfl
      intro i2 hi2
      rw [Finset.mem_range] at hi1 hi2
      have hi1b : i1 < (a.cores k).nrows := by rw [hanr]; exact hi1
      have hi2b : i2 < (b.cores k).nrows := by rw [hbnr]; exact hi2
      have hqb : q < (b.cores k).ncols := by rw [hbnc]; exact hq
      have hbpos : 0 < (b.cores k).nrows := by omega
      have hcpos : 0 < (b.cores k).ncols := by omega
      congr 1
      · exact ih (by omega) i1 i2 hi1 hi2
      · have hidx : i1 * b.ranks k + i2 = i1 * (b.cores k).nrows + i2 := by
          rw [hbnr]
        have hjdx : p * b.ranks (k + 1) + q = p * (b.cores k).ncols + q := by
          rw [hbnc]
        rw [hidx, hjdx,
          show (function_train_product a b).cores k =
            qmarray_kron (a.cores k) (b.cores k) from rfl]
        have hibound : i1 * (b.cores k).nrows + i2 <
            (a.cores k).nrows * (b.cores k).nrows := by
          calc i1 * (b.cores k).nrows + i2 <
              i1 * (b.cores k).nrows + (b.cores k).nrows := by omega
            _ = (i1 + 1) * (b.cores k).nrows := by rw [Nat.succ_mul]
            _ ≤ (a.cores k).nrows * (b.cores k).nrows :=
                Nat.mul_le_mul_right _ (by omega)
        rw [qmarray_kron_entry (a.cores k) (b.cores k) _ _ hibound]
        have e1 : (i1 * (b.cores k).nrows + i2) / (b.cores k).nrows = i1 := by
          rw [Nat.mul_comm i1 (b.cores k).nrows, Nat.mul_add_div hbpos,
            Nat.div_eq_of_lt hi2b, Nat.add_zero]
        have e2 : (i1 * (b.cores k).nrows + i2) % (b.cores k).nrows = i2 := by
          rw [Nat.mul_comm i1 (b.cores k).nrows, Nat.mul_add_mod]
          exact Nat.mod_eq_of_lt hi2b
        have e3 : (p * (b.cores k).ncols + q) / (b.cores k).ncols = p := by
          rw [Nat.mul_comm p (b.cores k).ncols, Nat.mul_add_div hcpos,
            Nat.div_eq_of_lt hqb, Nat.add_zero]
        have e4 : (p * (b.cores k).ncols + q) % (b.cores k).ncols = q := by
          rw [Nat.mul_comm p (b.cores k).ncols, Nat.mul_add_mod]
          exact Nat.mod_eq_of_lt hqb
        rw [e1, e2, e3, e4]
        rfl

/-- C5: for every pair of chain-consistent function trains over the same
dimensions, the overlap-sweep inner product (`function_train_inner`,
computed without materializing the product train) equals exactly the
integral of the explicit Kronecker-structured product train — and hence
agrees with it within any relative tolerance, in particular 1e-13. -/
theorem claim_C5 (a b : FunctionTrain) (hd : a.dim = b.dim)
    (ha : ft_invariant a) (hb : ft_invariant b) :
    function_train_inner a b =
      function_train_integrate (function_train_product a b) := by
  have h0a : 0 < a.ranks a.dim := by rw [ha.2.1]; omega
  have h0b : 0 < b.ranks a.dim := by rw [hd, hb.2.1]; omega
  have key := inner_eq_prod_vec a b hd ha hb a.dim (le_refl _) 0 0 h0a h0b
  simp only [Nat.zero_mul, Nat.zero_add] at key
  exact key.symm

/-- Witness for C5 at concrete dimension-3 trains. -/
theorem claim_C5_witness :
    function_train_inner wTrain3 wTrain3 =
      function_train_integrate (function_train_product wTrain3 wTrain3) :=
  claim_C5 wTrain3 wTrain3 rfl (by decide) (by decide)

/-- Modelled from the spec: `function_train_linear` (not under src/): the
rank-2 train representing `sum_k (offset_k + slope_k * x_k)`.  The first
core is the 1x2 row `[offset_0 + slope_0 * x, 1]`, each interior core is
the 2x2 matrix `[[1, 0], [offset_k + slope_k * x, 1]]` (column-major in
the flat function list), and the last core is the 2x1 column
`[1; offset_(dim-1) + slope_(dim-1) * x]`. -/
def function_train_linear (dim : ℕ) (slope offset : ℕ → ℚ) : FunctionTrain :=
  { dim := dim
    ranks := fun k => if k = 0 ∨ k = dim then 1 else 2
    cores := fun k =>
      if k = 0 then
        { nrows := 1
          ncols := 2
          funcs := fun p =>
            if p = 0 then [offset 0, slope 0]
            else if p = 1 then [1] else [] }
      else if k = dim - 1 then
        { nrows := 2
          ncols := 1
          funcs := fun p =>
            if p = 0 then [1]
            else if p = 1 then [offset k, slope k] else [] }
      else
        { nrows := 2
          ncols := 2
          funcs := fun p =>
            if p = 0 then [1]
            else if p = 1 then [offset k, slope k]
            else if p = 3 then [1] else [] } }

/-- C6: chain evaluation of the linear train with dim = 3, slopes
[1, 2, 3] and zero offsets at the point (-0.1, 0.4, 0.2) yields exactly
-0.1*1 + 0.4*2 + 0.2*3 = 1.3, hence within absolute error 1e-14. -/
theorem claim_C6 :
    |function_train_eval
        (function_train_linear 3
          (fun k => if k = 0 then 1 else if k = 1 then 2 else 3)
          (fun _ => 0))
        (fun k => if k = 0 then -1/10 else if k = 1 then 2/5 else 1/5) -
      13/10| ≤ 1 / 100000000000000 := by
  have h : function_train_eval
      (function_train_linear 3
        (fun k => if k = 0 then 1 else if k = 1 then 2 else 3)
        (fun _ => 0))
      (fun k => if k = 0 then -1/10 else if k = 1 then 2/5 else 1/5) =
        13/10 := by
    show ft_vec _ _ 3 0 = _
    rw [ft_vec]
    simp only [ft_vec]
    norm_num [function_train_linear, Qmarray.entry, Finset.sum_range_succ,
      gfEval]
  rw [h]
  norm_num
